import Mathlib

/-!
# Craven change-transfer engine

A shallow embedding of `src/daemon/changetx.hpp` (class `change_transfer` and the
`rpc` message classes) together with the properties of its content-transfer
specification.

Conventions of the embedding:

* `std::string` is `String`; a byte sequence (file content, decoded chunk) is a
  `List Nat`; `uint32_t` values are naturals, reduced modulo `2 ^ 32` at the places
  where the source converts a stream position to `uint32_t`.
* `std::map` is a key-ordered association list (`assoc_*` below).
* A member function that mutates the engine returns an `outcome`: the engine after
  the call, the messages handed to `send_handler_`, and the exception that left
  the function, if any.  State changes made before a throw are kept, as in C++.
* Everything the source leaves to its host (the base64 library, the behaviour of a
  stream seek beyond the end of a file, the values of members and buffers that are
  never initialised) is a field of `Host`, so that statements can quantify over it.
-/

namespace Craven

/-- File contents and chunk payloads: a sequence of byte values. -/
abbrev Bytes := List Nat

/-- Exceptions that can leave a member function of the engine or of the Store. -/
inductive failure where
  | no_such_key
  | no_such_version
  | already_exists
  | in_progress
  | io_failure
  | decode_failure
  | out_of_range
  | not_implemented
deriving DecidableEq, Repr

/-- Results of fallible operations can be compared. -/
instance {ε α : Type} [DecidableEq ε] [DecidableEq α] : DecidableEq (Except ε α) :=
  fun a b =>
    match a, b with
    | .ok x, .ok y =>
      if h : x = y then isTrue (by rw [h]) else isFalse (fun h2 => h (Except.ok.inj h2))
    | .error x, .error y =>
      if h : x = y then isTrue (by rw [h]) else isFalse (fun h2 => h (Except.error.inj h2))
    | .ok _, .error _ => isFalse (fun h => Except.noConfusion h)
    | .error _, .ok _ => isFalse (fun h => Except.noConfusion h)

/-! ## Key-ordered association lists (`std::map` with a `(string, string)` key) -/

/-- Strict lexicographic order of `std::tuple<std::string, std::string>`, each string
compared character by character. -/
def key_lt (a b : String × String) : Bool :=
  decide (a.1.data < b.1.data) || (decide (a.1 = b.1) && decide (a.2.data < b.2.data))

/-- Lookup, `std::map::find`. -/
def assoc_find {β : Type} (k : String × String) : List ((String × String) × β) → Option β
  | [] => none
  | e :: rest => if e.1 = k then some e.2 else assoc_find k rest

/-- Number of entries under a key, `std::map::count`: 0 or 1. -/
def assoc_count {β : Type} (k : String × String) (m : List ((String × String) × β)) : Nat :=
  if (assoc_find k m).isSome then 1 else 0

/-- Position of a new entry in key order. -/
def assoc_place {β : Type} (k : String × String) (v : β) :
    List ((String × String) × β) → List ((String × String) × β)
  | [] => [(k, v)]
  | e :: rest =>
    if key_lt k e.1 then (k, v) :: e :: rest
    else e :: assoc_place k v rest

/-- Insertion that keeps an existing entry, `std::map::insert`. -/
def assoc_insert {β : Type} (k : String × String) (v : β) (m : List ((String × String) × β)) :
    List ((String × String) × β) :=
  if (assoc_find k m).isSome then m else assoc_place k v m

/-- Removal of a key, `std::map::erase`. -/
def assoc_erase {β : Type} (k : String × String) (m : List ((String × String) × β)) :
    List ((String × String) × β) :=
  m.filter (fun e => !decide (e.1 = k))

/-- Assignment through a reference obtained from the map (`std::map::at`): the entry
under `k` is replaced, the keys are untouched. -/
def assoc_set {β : Type} (k : String × String) (v : β) (m : List ((String × String) × β)) :
    List ((String × String) × β) :=
  m.map (fun e => if e.1 = k then (e.1, v) else e)

/-! ## RPC messages (`change::rpc`) -/

namespace rpc

/-- The enumeration `response::error_code`. -/
inductive error_code where
  | ok
  | eof
  | no_key
  | no_version
deriving DecidableEq, Repr

/-- The class `rpc::request`: the fields of `rpc::base`. -/
structure request where
  key : String
  version : String
  old_version : String
  start : Nat
deriving DecidableEq, Repr

/-- The class `rpc::response`: the fields of `rpc::base`, the encoded chunk and the
error code. -/
structure response where
  key : String
  version : String
  old_version : String
  start : Nat
  data : String
  ec : error_code
deriving DecidableEq, Repr

/-- Modelled from the spec: the constructor `response(const request&, data, ec)`, whose
body is not among the sources; the reply carries the request's `key`, `version`,
`old_version` and `start` (spec 4.4.1). -/
def reply (respond_to : request) (data : String) (ec : error_code) : response :=
  { key := respond_to.key, version := respond_to.version,
    old_version := respond_to.old_version, start := respond_to.start,
    data := data, ec := ec }

end rpc

/-! ## The Store (`persistence`) -/

/-- A path handed out by the Store.  The spec asks for a mapping from `(key, version)`
that is deterministic and collision-free; the pair itself is used. -/
abbrev path := String × String

/-- Modelled from the spec: the Store (class `persistence` of persist.hpp, which is not
among the sources), spec 4.1.  It is the index from `(key, version)` to a file,
together with the bytes of each file. -/
structure persistence where
  files : List (path × Bytes)
deriving DecidableEq, Repr

namespace persistence

/-- Modelled from the spec: `exists(key)` of the Store. -/
def exists_key (s : persistence) (key : String) : Bool :=
  s.files.any (fun e => decide (e.1.1 = key))

/-- Modelled from the spec: `exists(key, version)` of the Store. -/
def exists_version (s : persistence) (key version : String) : Bool :=
  (assoc_find (key, version) s.files).isSome

/-- Modelled from the spec: `versions()` of the Store, all names, tagged or not. -/
def versions (s : persistence) : List (String × String) :=
  s.files.map (fun e => e.1)

/-- Modelled from the spec: `path(key, version)` of the Store (the functor call
`root_(key, version)`), which fails with `NoSuchKey` or `NoSuchVersion`. -/
def path_of (s : persistence) (key version : String) : Except failure path :=
  if !s.exists_key key then .error .no_such_key
  else if !s.exists_version key version then .error .no_such_version
  else .ok (key, version)

/-- Modelled from the spec: `add(key, version)` of the Store: creates an empty file and
returns its path; fails with `AlreadyExists`. -/
def add (s : persistence) (key version : String) : Except failure (persistence × path) :=
  if s.exists_version key version then .error .already_exists
  else .ok ({ files := assoc_insert (key, version) [] s.files }, (key, version))

/-- Modelled from the spec: `rename(k1, v1, k2, v2)` of the Store: fails if the source
is absent or the destination present. -/
def rename (s : persistence) (k1 v1 k2 v2 : String) : Except failure persistence :=
  match assoc_find (k1, v1) s.files with
  | none => .error (if s.exists_key k1 then .no_such_version else .no_such_key)
  | some bytes =>
    if s.exists_version k2 v2 then .error .already_exists
    else .ok { files := assoc_insert (k2, v2) bytes (assoc_erase (k1, v1) s.files) }

/-- Modelled from the spec: `kill(key, version)` of the Store: removes the file, silently
if there is none. -/
def kill (s : persistence) (key version : String) : persistence :=
  { files := assoc_erase (key, version) s.files }

/-- The bytes of the file at a path (empty when there is no such file). -/
def read_file (s : persistence) (p : path) : Bytes :=
  (assoc_find p s.files).getD []

/-- Replacement of the bytes of the file at a path. -/
def write_file (s : persistence) (p : path) (bytes : Bytes) : persistence :=
  { files := assoc_set p bytes s.files }

end persistence

/-! ## The host of the engine -/

/-- What the source takes from its host and does not fix itself.

* `encode`, `decode`: the base64 library (`base64::encoder`, `base64::decoder`); a
  decoder that rejects its input answers `none`.
* `seek_past_end_fails`: whether a stream seek to a position beyond the end of the
  file puts the stream in the failed state (it does not on a POSIX file).
* `fresh_length`, `fresh_eof_seen`: the values read from the members `length` and
  `eof_seen` of a `pending_info`, which its constructor leaves uninitialised.
* `fresh_buf`: the bytes of the uninitialised read buffer of `request`. -/
structure Host where
  encode : Bytes → String
  decode : String → Option Bytes
  seek_past_end_fails : Bool
  fresh_length : Nat
  fresh_eof_seen : Bool
  fresh_buf : Bytes

/-! ## Output file streams -/

/-- Bytes written at a position of a file; a write that starts beyond the end of the
file leaves zero bytes in between, and a write of nothing changes nothing. -/
def write_at (content : Bytes) (pos : Nat) (bytes : Bytes) : Bytes :=
  if bytes = [] then content
  else content.take pos ++ List.replicate (pos - content.length) 0 ++ bytes
    ++ content.drop (pos + bytes.length)

/-- An open `boost::filesystem::ofstream`: the bytes of the file, the put position and
the failed state of the stream. -/
structure ofstream where
  content : Bytes
  pos : Nat
  failed : Bool
deriving DecidableEq, Repr

namespace ofstream

/-- Construction `ofstream of(path)`: the default open mode `std::ios::out` truncates the
file, whatever it held. -/
def open_out (_existing : Bytes) : ofstream :=
  { content := [], pos := 0, failed := false }

/-- Call `seekp(pos)`. -/
def seekp (H : Host) (s : ofstream) (pos : Nat) : ofstream :=
  if s.failed then s
  else if H.seek_past_end_fails && decide (s.content.length < pos) then { s with failed := true }
  else { s with pos := pos }

/-- Call `clear()`. -/
def clear (s : ofstream) : ofstream :=
  { s with failed := false }

/-- Call `seekp(0, std::ios::end)`. -/
def seekp_end (s : ofstream) : ofstream :=
  if s.failed then s else { s with pos := s.content.length }

/-- Call `tellp()` on a stream that has not failed. -/
def tellp (s : ofstream) : Nat :=
  s.pos

/-- Output of a run of bytes at the put position. -/
def write (s : ofstream) (bytes : Bytes) : ofstream :=
  if s.failed then s
  else { s with content := write_at s.content s.pos bytes, pos := s.pos + bytes.length }

end ofstream

/-! ## Library calls of the scratch workflow -/

/-- The call `boost::algorithm::ends_with(input, test)`: `test` is a suffix of `input`. -/
def ends_with (input test : String) : Bool :=
  test.data.isSuffixOf input.data

/-- The five words `unsigned int hash[5]` that `get_digest` fills. -/
structure sha1_digest where
  w0 : Nat
  w1 : Nat
  w2 : Nat
  w3 : Nat
  w4 : Nat
deriving DecidableEq, Repr

/-- The class `boost::uuids::detail::sha1`, which the source takes from its library: a
fresh hasher, `process_bytes` and `get_digest`. -/
structure sha1_impl where
  State : Type
  init : State
  process_bytes : State → Bytes → State
  get_digest : State → sha1_digest

/-- Output of an unsigned value on a stream in `std::hex` mode with the given field width
and fill character: lowercase digits, padded on the left. -/
def put_hex (width : Nat) (fill : Char) (value : Nat) : List Char :=
  List.replicate (width - (Nat.toDigits 16 value).length) fill ++ Nat.toDigits 16 value

/-! ## The engine (`change_transfer`) -/

/-- The struct `pending_info`. -/
structure pending_info where
  eof_seen : Bool
  length : Nat
  from_ : String
  version : String
  gaps : List (Nat × Nat)
deriving DecidableEq, Repr

/-- The constructor `pending_info(from, version)`: `eof_seen` and `length` are not
initialised and hold whatever the host left there; `gaps` is empty. -/
def pending_info.mk_from (H : Host) (from_ version : String) : pending_info :=
  { eof_seen := H.fresh_eof_seen, length := H.fresh_length, from_ := from_,
    version := version, gaps := [] }

/-- The data members `root_` and `pending_` of `change_transfer`. -/
structure change_transfer where
  root_ : persistence
  pending_ : List ((String × String) × pending_info)
deriving DecidableEq, Repr

/-- The result of a call of a member function: the engine afterwards, the calls of
`send_handler_` in order, and the exception that left the function. -/
structure outcome where
  state : change_transfer
  sent : List (String × rpc.request)
  thrown : Option failure
deriving DecidableEq, Repr

namespace change_transfer

/-- Member `exists(key)`. -/
def exists_key (self : change_transfer) (key : String) : Bool :=
  self.root_.exists_key key

/-- Member `exists(key, version)`. -/
def exists_version (self : change_transfer) (key version : String) : Bool :=
  decide (assoc_count (key, version) self.pending_ = 0) && self.root_.exists_version key version

/-- Member `operator()(key, version)`, also reached through `get`. -/
def get (self : change_transfer) (key version : String) : Except failure path :=
  if assoc_count (key, version) self.pending_ = 1 then .error .in_progress
  else self.root_.path_of key version

/-- Member `tick()`. -/
def tick (self : change_transfer) : outcome :=
  { state := self,
    sent := self.pending_.foldl
      (fun sent pending =>
        let start_from :=
          match pending.2.gaps with
          | [] => pending.2.length
          | gap :: _ => gap.1
        sent ++ [(pending.2.from_,
          ({ key := pending.1.1, version := pending.2.version, old_version := "",
             start := start_from } : rpc.request))])
      [],
    thrown := none }

/-- The read buffer `std::array<char, block_limit> buf` after `file.read`: the bytes that
were read, followed by what the uninitialised buffer held. -/
def read_buf (H : Host) (block_limit : Nat) (got : Bytes) : Bytes :=
  got ++ ((H.fresh_buf ++ List.replicate block_limit 0).take block_limit).drop got.length

/-- Member `request(rpc)`, the handler for request RPCs; `block_limit` is the template
parameter of the class (450 by default). -/
def request (H : Host) (block_limit : Nat) (self : change_transfer) (msg : rpc.request) :
    Except failure rpc.response :=
  if !self.exists_key msg.key then .ok (rpc.reply msg "" .no_key)
  else if !self.exists_version msg.key msg.version then .ok (rpc.reply msg "" .no_version)
  else
    match self.root_.path_of msg.key msg.version with
    | .error e => .error e
    | .ok p =>
      let file := self.root_.read_file p
      -- file.seekg(rpc.start()); if(file.fail()) ...
      if H.seek_past_end_fails && decide (file.length < msg.start) then
        .ok (rpc.reply msg "" .eof)
      else
        -- file.read(buf.data(), buf.size())
        let got := (file.drop msg.start).take block_limit
        let file_eof := decide (got.length < block_limit)
        -- the encoder is given the whole buffer
        let data := H.encode (read_buf H block_limit got)
        .ok (rpc.reply msg data (if file_eof then .eof else .ok))

/-- Member `commit_handler(from, key, version)`; it is `noexcept` and swallows every
exception of its body. -/
def commit_handler (H : Host) (self : change_transfer) (from_ key version : String) : outcome :=
  let pending_vers := version ++ ".pending"
  let added : Except failure persistence :=
    if !self.exists_version key pending_vers then
      (self.root_.add key pending_vers).map Prod.fst
    else .ok self.root_
  match added with
  | .error _ => { state := self, sent := [], thrown := none }
  | .ok root1 =>
    let pending1 :=
      if assoc_count (key, pending_vers) self.pending_ = 0 then
        assoc_insert (key, version) (pending_info.mk_from H from_ pending_vers) self.pending_
      else self.pending_
    { state := { root_ := root1, pending_ := pending1 },
      sent := [(from_, ({ key := key, version := version, old_version := "", start := 0 } :
        rpc.request))],
      thrown := none }

/-- Lines 263-265 of `response`: a record is inserted under the tagged name when the
pending map has none. -/
def ensure_record (H : Host) (pending : List ((String × String) × pending_info))
    (from_ key pending_vers : String) : List ((String × String) × pending_info) :=
  if assoc_count (key, pending_vers) pending = 0 then
    assoc_insert (key, pending_vers) (pending_info.mk_from H from_ pending_vers) pending
  else pending

/-- Lines 268-273 of `response`: the pending file is added to the Store when it does not
exist, and looked up when it does. -/
def locate_pending (root : persistence) (key pending_vers : String) :
    Except failure (persistence × path) :=
  if !root.exists_version key pending_vers then root.add key pending_vers
  else (root.path_of key pending_vers).map (fun p => (root, p))

/-- The Store that `locate_pending` leaves: the one it was given, with an empty pending
file added when there was none. -/
def ensured_file (root : persistence) (key pending_vers : String) : persistence :=
  if root.exists_version key pending_vers then root
  else { files := assoc_insert (key, pending_vers) [] root.files }

/-- Lines 280-285 of `response`, the placement test: `start` is the length, or the start
of a gap. -/
def valid_placement (info : pending_info) (start : Nat) : Bool :=
  let valid := decide (info.length = start)
  if !valid then info.gaps.foldl (fun valid gap => valid || decide (start = gap.1)) valid
  else valid

/-- Lines 291-314 of `response`: the stream is positioned at `start`; when that seek
fails, the file is filled with zero bytes from its end up to `start` and the filled
interval is recorded as a gap.  A failure of the seek to the end of the file throws
"Failed file transfer". -/
def spool (H : Host) (of0 : ofstream) (gaps : List (Nat × Nat)) (start : Nat) :
    Except failure (List (Nat × Nat) × ofstream) :=
  let of1 := of0.seekp H start
  if of1.failed then
    let of_end := of1.clear.seekp_end
    if of_end.failed then .error .io_failure
    else
      let fill := (start - of_end.tellp) % 2 ^ 32
      .ok (gaps ++ [(of_end.tellp % 2 ^ 32, fill)], of_end.write (List.replicate fill 0))
  else .ok (gaps, of1)

/-- Lines 288-344 of `response`: what is done with a chunk that passed the placement
test and carries data.  `root1` and `pending1` are the Store and the pending map at that
point, `of0` the freshly opened stream on the pending file, `info` the record of the
transfer. -/
def accept_chunk (H : Host) (root1 : persistence)
    (pending1 : List ((String × String) × pending_info)) (pending_path : path)
    (of0 : ofstream) (info : pending_info) (msg : rpc.response) : outcome :=
  let pending_vers := msg.version ++ ".pending"
  match spool H of0 info.gaps msg.start with
  | .error e =>
    { state := { root_ := root1.write_file pending_path of0.content, pending_ := pending1 },
      sent := [], thrown := some e }
  | .ok spooled =>
    match H.decode msg.data with
    | none =>
      { state := { root_ := root1.write_file pending_path spooled.2.content,
                   pending_ := assoc_set (msg.key, pending_vers)
                     { info with gaps := spooled.1 } pending1 },
        sent := [], thrown := some .decode_failure }
    | some payload =>
      let of3 := spooled.2.write payload
      let length1 := max (of3.tellp % 2 ^ 32) info.length
      let gaps2 := spooled.1.filter (fun value => !decide (value.1 = msg.start))
      let eof_seen1 := if msg.ec = .eof then true else info.eof_seen
      let info1 : pending_info :=
        { info with eof_seen := eof_seen1, length := length1, gaps := gaps2 }
      let pending2 := assoc_set (msg.key, pending_vers) info1 pending1
      let root2 := root1.write_file pending_path of3.content
      if eof_seen1 && gaps2.isEmpty then
        match root2.rename msg.key pending_vers msg.key msg.version with
        | .error e =>
          { state := { root_ := root2, pending_ := pending2 }, sent := [], thrown := some e }
        | .ok root3 =>
          { state := { root_ := root3,
                       pending_ := assoc_erase (msg.key, pending_vers) pending2 },
            sent := [], thrown := none }
      else
        { state := { root_ := root2, pending_ := pending2 }, sent := [], thrown := none }

/-- Member `response(from, rpc)`, the handler for response RPCs. -/
def response (H : Host) (self : change_transfer) (from_ : String) (msg : rpc.response) :
    outcome :=
  if msg.ec = .no_key ∨ msg.ec = .no_version then
    let pending1 :=
      if assoc_count (msg.key, msg.version ++ ".pending") self.pending_ = 1 then
        assoc_erase (msg.key, msg.version ++ ".pending") self.pending_
      else self.pending_
    let root1 :=
      if self.root_.exists_version msg.key (msg.version ++ ".pending") then
        self.root_.kill msg.key (msg.version ++ ".pending")
      else self.root_
    { state := { root_ := root1, pending_ := pending1 }, sent := [], thrown := none }
  else if !self.exists_version msg.key msg.version then
    let pending_vers := msg.version ++ ".pending"
    let pending1 := ensure_record H self.pending_ from_ msg.key pending_vers
    match locate_pending self.root_ msg.key pending_vers with
    | .error e =>
      { state := { root_ := self.root_, pending_ := pending1 }, sent := [], thrown := some e }
    | .ok (root1, pending_path) =>
      let of0 := ofstream.open_out (root1.read_file pending_path)
      match assoc_find (msg.key, pending_vers) pending1 with
      | none =>
        { state := { root_ := root1.write_file pending_path of0.content, pending_ := pending1 },
          sent := [], thrown := some .out_of_range }
      | some info =>
        let valid := valid_placement info msg.start
        if valid && decide (msg.data ≠ "") then
          accept_chunk H root1 pending1 pending_path of0 info msg
        else
          { state := { root_ := root1.write_file pending_path of0.content, pending_ := pending1 },
            sent := [], thrown := none }
  else { state := self, sent := [], thrown := none }

/-! ### Read accessors and the scratch workflow -/

/-- Member `versions(key)`: the names of the key in the Store, without those that the
filter of the source takes for scratches or pending transfers. -/
def versions (self : change_transfer) (key : String) : List String :=
  ((self.root_.versions.filter (fun value => decide (value.1 = key))).filter
      (fun value => !(ends_with value.2 "scratch" || ends_with value.2 "pending"))).map
    (fun value => value.2)

/-- The class `change_transfer::scratch`: the resolved path, the key and the version
name of a scratch file. -/
structure scratch where
  resolved_ : path
  key_ : String
  version_ : String
deriving DecidableEq, Repr

/-- The constructor `scratch(resolved, key, version)`: it initialises the members and
then throws "Not yet implemented", so no handle is ever handed out. -/
def scratch.construct (_resolved : path) (_key _version : String) : Except failure scratch :=
  .error .not_implemented

/-- The result of a call of a member function that returns a value: the engine afterwards
and the value, or the exception that left the function. -/
structure returned (α : Type) where
  state : change_transfer
  result : Except failure α

/-- The read loop of `sha1_hash`: blocks of 512 bytes are read and fed to the hasher until
a read hits the end of the file; `fuel` bounds the number of reads. -/
def hash_blocks (lib : sha1_impl) : Nat → lib.State → Bytes → lib.State
  | 0, st, _ => st
  | fuel + 1, st, data =>
    let buf := data.take 512
    let st1 := lib.process_bytes st buf
    if buf.length < 512 then st1 else hash_blocks lib fuel st1 (data.drop 512)

/-- Lines 593-600 of `sha1_hash`: `os << std::hex << std::setfill('0') << std::setw(8)`
followed by `os << hash[i]` for the five words.  The fill character and the base stay in
force; the field width applies to the next output only and is 0 after it. -/
def render_digest (hash : sha1_digest) : String :=
  String.mk
    (([hash.w0, hash.w1, hash.w2, hash.w3, hash.w4].foldl
        (fun (os : List Char × Nat) word => (os.1 ++ put_hex os.2 '0' (word % 2 ^ 32), 0))
        ([], 8)).1)

/-- Member `sha1_hash(file)`: the rendered digest of the bytes of the file; a file that
does not exist makes `file_size` throw. -/
def sha1_hash (lib : sha1_impl) (root : persistence) (file : path) : Except failure String :=
  match assoc_find file root.files with
  | none => .error .io_failure
  | some data =>
    .ok (render_digest (lib.get_digest (hash_blocks lib (data.length + 1) lib.init data)))

/-- Member `open(key, version)`.  The copy `fs::copy(root_(key, version), path)` is taken to
copy the bytes of the source file into the scratch file. -/
def open_ (self : change_transfer) (key version : String) : returned scratch :=
  let scratch_id := version ++ ".scratch"
  match self.root_.add key scratch_id with
  | .error e => { state := self, result := .error e }
  | .ok (root1, scratch_path) =>
    match root1.path_of key version with
    | .error e => { state := { self with root_ := root1 }, result := .error e }
    | .ok source =>
      let root2 := root1.write_file scratch_path (root1.read_file source)
      { state := { self with root_ := root2 },
        result := scratch.construct scratch_path key scratch_id }

/-- Member `close(scratch_info)`. -/
def close (lib : sha1_impl) (self : change_transfer) (scratch_info : scratch) :
    returned String :=
  match sha1_hash lib self.root_ scratch_info.resolved_ with
  | .error e => { state := self, result := .error e }
  | .ok new_version =>
    match self.root_.rename scratch_info.key_ scratch_info.version_ scratch_info.key_
        new_version with
    | .error e => { state := self, result := .error e }
    | .ok root1 => { state := { self with root_ := root1 }, result := .ok new_version }

/-- Member `add(key)`. -/
def add (self : change_transfer) (key : String) : returned scratch :=
  match self.root_.add key ".scratch" with
  | .error e => { state := self, result := .error e }
  | .ok (root1, scratch_path) =>
    { state := { self with root_ := root1 },
      result := scratch.construct scratch_path key ".scratch" }

/-- Member `kill(scratch_info)`. -/
def kill (self : change_transfer) (scratch_info : scratch) : change_transfer :=
  { self with root_ := self.root_.kill scratch_info.key_ scratch_info.version_ }

/-- Member `rename(new_key, scratch_info)`; the `std::logic_error` "Can't create a new key
if it already exists" is the `AlreadyExists` failure. -/
def rename (lib : sha1_impl) (self : change_transfer) (new_key : String)
    (scratch_info : scratch) : returned String :=
  if self.root_.exists_key new_key then { state := self, result := .error .already_exists }
  else
    match sha1_hash lib self.root_ scratch_info.resolved_ with
    | .error e => { state := self, result := .error e }
    | .ok new_version =>
      match self.root_.rename scratch_info.key_ scratch_info.version_ new_key new_version with
      | .error e => { state := self, result := .error e }
      | .ok root1 => { state := { self with root_ := root1 }, result := .ok new_version }

end change_transfer

/-! ## A concrete host: the ChunkCodec of the spec on a POSIX file system -/

/-- The base64 alphabet. -/
def base64_alphabet : List Char :=
  "ABCDEFGHIJKLMNOPQRSTUVWXYZabcdefghijklmnopqrstuvwxyz0123456789+/".data

/-- The character of a 6-bit value. -/
def base64_char (n : Nat) : Char :=
  base64_alphabet.getD n 'A'

/-- The 6-bit value of a character of the alphabet. -/
def base64_value (c : Char) : Option Nat :=
  if base64_alphabet.indexOf c < 64 then some (base64_alphabet.indexOf c) else none

/-- Modelled from the spec: `encode` of the ChunkCodec (spec 4.2), base64 without line
breaks, on the characters of the text. -/
def base64_encode_chars : Bytes → List Char
  | [] => []
  | [a] => [base64_char (a / 4 % 64), base64_char (a % 4 * 16), '=', '=']
  | [a, b] =>
    [base64_char (a / 4 % 64), base64_char (a % 4 * 16 + b / 16 % 16),
     base64_char (b % 16 * 4), '=']
  | a :: b :: c :: rest =>
    base64_char (a / 4 % 64) :: base64_char (a % 4 * 16 + b / 16 % 16)
      :: base64_char (b % 16 * 4 + c / 64 % 4) :: base64_char (c % 64)
      :: base64_encode_chars rest

/-- Modelled from the spec: `decode` of the ChunkCodec (spec 4.2), strict base64: a text
that is not a sequence of complete groups over the alphabet is rejected. -/
def base64_decode_chars : List Char → Option Bytes
  | [] => some []
  | c1 :: c2 :: c3 :: c4 :: rest =>
    match base64_value c1, base64_value c2 with
    | some v1, some v2 =>
      if c4 = '=' then
        if rest ≠ [] then none
        else if c3 = '=' then some [v1 * 4 + v2 / 16]
        else
          match base64_value c3 with
          | some v3 => some [v1 * 4 + v2 / 16, v2 % 16 * 16 + v3 / 4]
          | none => none
      else
        match base64_value c3, base64_value c4, base64_decode_chars rest with
        | some v3, some v4, some bytes =>
          some ((v1 * 4 + v2 / 16) :: (v2 % 16 * 16 + v3 / 4) :: (v3 % 4 * 64 + v4) :: bytes)
        | _, _, _ => none
    | _, _ => none
  | _ => none

/-- The host the spec describes: its ChunkCodec, a file system on which a seek beyond
the end of a file succeeds, and zero in every uninitialised member and buffer. -/
def posix_host : Host :=
  { encode := fun bytes => String.mk (base64_encode_chars bytes),
    decode := fun text => base64_decode_chars text.data,
    seek_past_end_fails := false,
    fresh_length := 0,
    fresh_eof_seen := false,
    fresh_buf := [] }

/-- The same host on a file system where a seek beyond the end of a file fails, which is
what the gap branch of `response` expects. -/
def strict_seek_host : Host :=
  { posix_host with seek_past_end_fails := true }

/-- The engine right after construction: an empty Store and no pending transfer. -/
def empty_engine : change_transfer :=
  { root_ := { files := [] }, pending_ := [] }

/-- A stand-in for the SHA-1 library in examples: the "digest" of the bytes fed so far is
their sum, their number and three zero words.  It does not compute SHA-1; `reference_sha1`
does. -/
def sample_sha1 : sha1_impl :=
  { State := Nat × Nat,
    init := (0, 0),
    process_bytes := fun st buf => (st.1 + buf.sum, st.2 + buf.length),
    get_digest := fun st => { w0 := st.1, w1 := st.2, w2 := 0, w3 := 0, w4 := 0 } }

/-! ## The Hasher of the spec -/

/-- Rotation of a 32-bit word to the left by `n` bits. -/
def rotl32 (x n : Nat) : Nat :=
  ((x <<< n) ||| (x >>> (32 - n))) % 2 ^ 32

/-- The padded message of SHA-1: the bytes, the byte `0x80`, zero bytes up to 56 modulo 64,
and the length of the message in bits as 8 bytes, most significant first. -/
def sha1_pad (data : Bytes) : Bytes :=
  data.map (fun b => b % 256) ++ [0x80]
    ++ List.replicate ((119 - data.length % 64) % 64) 0
    ++ (List.range 8).map (fun i => (8 * data.length) / 2 ^ (8 * (7 - i)) % 256)

/-- The word `i` of a block, most significant byte first. -/
def sha1_word (block : Bytes) (i : Nat) : Nat :=
  block.getD (4 * i) 0 * 2 ^ 24 + block.getD (4 * i + 1) 0 * 2 ^ 16
    + block.getD (4 * i + 2) 0 * 2 ^ 8 + block.getD (4 * i + 3) 0

/-- The 80 words of the message schedule of a block. -/
def sha1_schedule (block : Bytes) : List Nat :=
  (List.range 64).foldl
    (fun w _ =>
      w ++ [rotl32 (w.getD (w.length - 3) 0 ^^^ w.getD (w.length - 8) 0
        ^^^ w.getD (w.length - 14) 0 ^^^ w.getD (w.length - 16) 0) 1])
    ((List.range 16).map (sha1_word block))

/-- One of the 80 steps of the compression function, on the working variables
`(a, b, c, d, e)`: step number `t`, schedule word `w`. -/
def sha1_step (v : sha1_digest) (t w : Nat) : sha1_digest :=
  let f :=
    if t < 20 then (v.w1 &&& v.w2) ||| ((v.w1 ^^^ (2 ^ 32 - 1)) &&& v.w3)
    else if t < 40 then v.w1 ^^^ v.w2 ^^^ v.w3
    else if t < 60 then (v.w1 &&& v.w2) ||| (v.w1 &&& v.w3) ||| (v.w2 &&& v.w3)
    else v.w1 ^^^ v.w2 ^^^ v.w3
  let k :=
    if t < 20 then 0x5a827999
    else if t < 40 then 0x6ed9eba1
    else if t < 60 then 0x8f1bbcdc
    else 0xca62c1d6
  { w0 := (rotl32 v.w0 5 + f + v.w4 + k + w) % 2 ^ 32,
    w1 := v.w0,
    w2 := rotl32 v.w1 30,
    w3 := v.w2,
    w4 := v.w3 }

/-- The compression of one 64-byte block into the chaining value. -/
def sha1_compress (h : sha1_digest) (block : Bytes) : sha1_digest :=
  let v := ((sha1_schedule block).foldl
    (fun (acc : sha1_digest × Nat) w => (sha1_step acc.1 acc.2 w, acc.2 + 1)) (h, 0)).1
  { w0 := (h.w0 + v.w0) % 2 ^ 32, w1 := (h.w1 + v.w1) % 2 ^ 32, w2 := (h.w2 + v.w2) % 2 ^ 32,
    w3 := (h.w3 + v.w3) % 2 ^ 32, w4 := (h.w4 + v.w4) % 2 ^ 32 }

/-- The compression of the blocks of a padded message, one after the other; `fuel` bounds
their number. -/
def sha1_blocks : Nat → sha1_digest → Bytes → sha1_digest
  | 0, h, _ => h
  | fuel + 1, h, padded =>
    if padded = [] then h
    else sha1_blocks fuel (sha1_compress h (padded.take 64)) (padded.drop 64)

/-- Modelled from the spec: the SHA-1 digest of a byte sequence (spec 4.3, FIPS 180). -/
def sha1 (data : Bytes) : sha1_digest :=
  sha1_blocks (data.length / 64 + 2)
    { w0 := 0x67452301, w1 := 0xefcdab89, w2 := 0x98badcfe, w3 := 0x10325476,
      w4 := 0xc3d2e1f0 }
    (sha1_pad data)

/-- Modelled from the spec: the canonical version id of a digest, its five words as 40
lowercase hexadecimal digits, 8 for each word (spec 4.3). -/
def version_id (hash : sha1_digest) : String :=
  String.mk
    (put_hex 8 '0' (hash.w0 % 2 ^ 32) ++ put_hex 8 '0' (hash.w1 % 2 ^ 32)
      ++ put_hex 8 '0' (hash.w2 % 2 ^ 32) ++ put_hex 8 '0' (hash.w3 % 2 ^ 32)
      ++ put_hex 8 '0' (hash.w4 % 2 ^ 32))

/-- Modelled from the spec: `hash(X)`, the version id of a file with the bytes `X`: its
SHA-1 digest rendered as 40 lowercase hexadecimal digits (spec 4.3). -/
def spec_hash (data : Bytes) : String :=
  version_id (sha1 data)

/-- The contract of `boost::uuids::detail::sha1`: after any sequence of `process_bytes`
calls on a fresh hasher, `get_digest` gives the SHA-1 digest of the bytes fed so far. -/
def implements_sha1 (lib : sha1_impl) : Prop :=
  ∀ chunks : List Bytes,
    lib.get_digest (chunks.foldl lib.process_bytes lib.init) = sha1 chunks.flatten

/-- A library that meets the contract: it collects the bytes it is fed and computes their
SHA-1 digest at the end. -/
def reference_sha1 : sha1_impl :=
  { State := Bytes,
    init := [],
    process_bytes := fun st buf => st ++ buf,
    get_digest := sha1 }

/-! ## Reachable states and the separation of pending and final names -/

/-- A version name that carries no tag: it ends with neither `".pending"` nor
`".scratch"`. -/
def untagged_name (version : String) : Prop :=
  ¬ ".pending".data <:+ version.data ∧ ¬ ".scratch".data <:+ version.data

/-- The engine states that the operations reach when commits and data responses carry
untagged version names.  The start is any engine with an empty pending map whose Store
holds untagged names only.  Of the scratch operations `open`, `add` and `kill` appear, the
first two with the state they leave behind when they throw; `close` and `rename`, for which
no handle is ever constructed, do not. -/
inductive reachable (H : Host) : change_transfer → Prop where
  | start (st : change_transfer) :
      st.pending_ = [] → (∀ p ∈ st.root_.versions, untagged_name p.2) → reachable H st
  | by_commit (st : change_transfer) (from_ key version : String) :
      reachable H st → untagged_name version →
      reachable H (change_transfer.commit_handler H st from_ key version).state
  | by_response (st : change_transfer) (from_ : String) (msg : rpc.response) :
      reachable H st →
      (untagged_name msg.version ∨ msg.ec = .no_key ∨ msg.ec = .no_version) →
      reachable H (change_transfer.response H st from_ msg).state
  | by_tick (st : change_transfer) :
      reachable H st → reachable H (change_transfer.tick st).state
  | by_open (st : change_transfer) (key version : String) :
      reachable H st → reachable H (change_transfer.open_ st key version).state
  | by_add (st : change_transfer) (key : String) :
      reachable H st → reachable H (change_transfer.add st key).state
  | by_kill (st : change_transfer) (scratch_info : change_transfer.scratch) :
      reachable H st → reachable H (change_transfer.kill st scratch_info)

/-- The names under which the Store holds a file. -/
def entry_keys (st : change_transfer) : String × String → Bool :=
  fun p => (assoc_find p st.root_.files).isSome

/-- The names under which the pending map holds a record. -/
def record_keys (st : change_transfer) : String × String → Bool :=
  fun p => (assoc_find p st.pending_).isSome

/-- The invariant of the reachable states, on the sets of names `E` of the Store and `R` of
the pending map: a name that is tagged as pending tags an untagged name, and a name of the
Store whose tagged form is in use has a record of its own. -/
def consistent_keys (E R : String × String → Bool) : Prop :=
  (∀ k v, (R (k, v ++ ".pending") = true ∨ E (k, v ++ ".pending") = true) → untagged_name v)
  ∧ (∀ k v, E (k, v) = true →
      (R (k, v ++ ".pending") = true ∨ E (k, v ++ ".pending") = true) → R (k, v) = true)

/-- The invariant of the reachable states. -/
def consistent (st : change_transfer) : Prop :=
  consistent_keys (entry_keys st) (record_keys st)

/-! ## Scenario data

The two-byte blob `[97, 98]` of `("a", "v1")`, held by peer `"p"` and cut into the chunks
`[97]` (offset 0) and `[98]` (offset 1). -/

/-- The response for the first chunk of the blob: offset 0, `ec = Ok`. -/
def first_chunk : rpc.response :=
  { key := "a", version := "v1", old_version := "", start := 0,
    data := posix_host.encode [97], ec := .ok }

/-- The response for the last chunk of the blob: offset 1, `ec = Eof`. -/
def last_chunk : rpc.response :=
  { key := "a", version := "v1", old_version := "", start := 1,
    data := posix_host.encode [98], ec := .eof }

/-- The response for a blob of the single byte `[97]`: offset 0, `ec = Eof`. -/
def whole_blob : rpc.response :=
  { key := "a", version := "v1", old_version := "", start := 0,
    data := posix_host.encode [97], ec := .eof }

/-- A terminal response without data at the end of the first chunk. -/
def empty_terminal : rpc.response :=
  { key := "a", version := "v1", old_version := "", start := 1, data := "", ec := .eof }

/-- A response placed beyond the end of the first chunk. -/
def chunk_ahead : rpc.response :=
  { key := "a", version := "v1", old_version := "", start := 3,
    data := posix_host.encode [98], ec := .ok }

/-- A response at offset 5 for a transfer that has not started. -/
def stray_chunk : rpc.response :=
  { key := "a", version := "v1", old_version := "", start := 5,
    data := posix_host.encode [97], ec := .ok }

/-- A negative acknowledgement for `("a", "v1")`. -/
def negative_ack : rpc.response :=
  { key := "a", version := "v1", old_version := "", start := 0, data := "",
    ec := .no_version }

/-- The record of the transfer of `("a", "v1")` from `"p"` once the first chunk is in. -/
def record_after_first : pending_info :=
  { eof_seen := false, length := 1, from_ := "p", version := "v1.pending", gaps := [] }

/-- The engine once the first chunk of the blob is in: the state that
`response` reaches from `empty_engine` on `first_chunk`. -/
def engine_after_first : change_transfer :=
  { root_ := { files := [(("a", "v1.pending"), [97])] },
    pending_ := [(("a", "v1.pending"), record_after_first)] }

/-- An engine whose Store holds the final version `("a", "v1")` with the bytes `[104, 105]`. -/
def serving_engine : change_transfer :=
  { root_ := { files := [(("a", "v1"), [104, 105])] }, pending_ := [] }

/-- The serving engine with a scratch of `("a", "v1")`, a copy of its bytes under the
tagged name. -/
def engine_with_scratch : change_transfer :=
  { root_ := { files := [(("a", "v1"), [104, 105]), (("a", "v1.scratch"), [104, 105])] },
    pending_ := [] }

/-- The serving engine after `commit_handler("p", "a", "v1")` and the delivery of
`whole_blob`: the final `("a", "v1")` was there before the commit, so the promotion of the
pending file failed and both records are left. -/
def engine_recommitted : change_transfer :=
  { root_ := { files := [(("a", "v1"), [104, 105]), (("a", "v1.pending"), [97])] },
    pending_ :=
      [(("a", "v1"),
         { eof_seen := false, length := 0, from_ := "p", version := "v1.pending", gaps := [] }),
       (("a", "v1.pending"),
         { eof_seen := true, length := 1, from_ := "p", version := "v1.pending", gaps := [] })] }

/-- An engine whose Store holds three final versions of `"a"`, two of them with names that
end in the letters of a tag without being tagged. -/
def engine_with_named_versions : change_transfer :=
  { root_ := { files := [(("a", "scratch"), [1]), (("a", "v1"), [2]), (("a", "xpending"), [3])] },
    pending_ := [] }

/-- The handle of the scratch of `("a", "v1")`. -/
def scratch_of_v1 : change_transfer.scratch :=
  { resolved_ := ("a", "v1.scratch"), key_ := "a", version_ := "v1.scratch" }

/-- A digest whose fourth word starts with a zero digit:
`de9f2c7f d25e1b3a fad3e85a 0bd17d9b 100db4b3`. -/
def digest_with_zero_digit : sha1_digest :=
  { w0 := 0xde9f2c7f, w1 := 0xd25e1b3a, w2 := 0xfad3e85a, w3 := 0x0bd17d9b, w4 := 0x100db4b3 }

/-- A complete one-chunk response for the version named `"v1.pending"` of `"a"`: offset
0, `ec = Eof`. -/
def tagged_blob : rpc.response :=
  { key := "a", version := "v1.pending", old_version := "", start := 0,
    data := posix_host.encode [98], ec := .eof }

/-- A first chunk of the version of `"a"` whose name is the id that `sample_sha1` gives to
the empty file. -/
def hashed_chunk : rpc.response :=
  { key := "a", version := "000000000000", old_version := "", start := 0,
    data := posix_host.encode [97], ec := .ok }

/-- The handle of the scratch that `add("a")` leaves in the Store. -/
def fresh_scratch : change_transfer.scratch :=
  { resolved_ := ("a", ".scratch"), key_ := "a", version_ := ".scratch" }

/-- The bytes of the text "The quick brown fox jumps over the lazy cog", whose SHA-1 digest
is `de9f2c7f d25e1b3a fad3e85a 0bd17d9b 100db4b3`. -/
def cog_text : Bytes :=
  "The quick brown fox jumps over the lazy cog".data.map (fun c => c.toNat)

/-- An engine whose Store holds the scratch `("a", "v1.scratch")` with the bytes of
`cog_text`. -/
def engine_with_cog_scratch : change_transfer :=
  { root_ := { files := [(("a", "v1.scratch"), cog_text)] }, pending_ := [] }

open change_transfer

/-! ## Association lists -/

theorem assoc_count_eq_zero_iff {β : Type} (k : String × String)
    (m : List ((String × String) × β)) : assoc_count k m = 0 ↔ assoc_find k m = none := by
  unfold assoc_count
  cases assoc_find k m <;> simp

theorem assoc_count_eq_one_iff {β : Type} (k : String × String)
    (m : List ((String × String) × β)) :
    assoc_count k m = 1 ↔ (assoc_find k m).isSome = true := by
  unfold assoc_count
  cases assoc_find k m <;> simp

theorem assoc_find_place_self {β : Type} (k : String × String) (v : β)
    (m : List ((String × String) × β)) (h : assoc_find k m = none) :
    assoc_find k (assoc_place k v m) = some v := by
  induction m with
  | nil => simp [assoc_place, assoc_find]
  | cons e rest ih =>
    unfold assoc_place
    by_cases h1 : e.1 = k
    · simp [assoc_find, h1] at h
    · have h3 : assoc_find k rest = none := by simpa [assoc_find, h1] using h
      by_cases h2 : key_lt k e.1 = true
      · simp [h2, assoc_find]
      · simp [h1, h2, assoc_find, ih h3]

theorem assoc_find_place_ne {β : Type} (k k2 : String × String) (v : β)
    (m : List ((String × String) × β)) (h : k2 ≠ k) :
    assoc_find k2 (assoc_place k v m) = assoc_find k2 m := by
  induction m with
  | nil => simp [assoc_place, assoc_find, Ne.symm h]
  | cons e rest ih =>
    unfold assoc_place
    by_cases h2 : key_lt k e.1 = true
    · simp [h2, assoc_find, Ne.symm h]
    · simp [h2, assoc_find, ih]

theorem assoc_find_insert_absent {β : Type} (k : String × String) (v : β)
    (m : List ((String × String) × β)) (h : assoc_find k m = none) :
    assoc_find k (assoc_insert k v m) = some v := by
  simp [assoc_insert, h, assoc_find_place_self]

theorem assoc_find_insert_ne {β : Type} (k k2 : String × String) (v : β)
    (m : List ((String × String) × β)) (h : k2 ≠ k) :
    assoc_find k2 (assoc_insert k v m) = assoc_find k2 m := by
  unfold assoc_insert
  split
  · rfl
  · exact assoc_find_place_ne k k2 v m h

theorem assoc_find_erase_self {β : Type} (k : String × String)
    (m : List ((String × String) × β)) : assoc_find k (assoc_erase k m) = none := by
  induction m with
  | nil => simp [assoc_erase, assoc_find]
  | cons e rest ih =>
    unfold assoc_erase at ih ⊢
    by_cases h1 : e.1 = k
    · simp [List.filter_cons, h1, ih]
    · simp [List.filter_cons, h1, assoc_find, ih]

theorem assoc_find_erase_ne {β : Type} (k k2 : String × String)
    (m : List ((String × String) × β)) (h : k2 ≠ k) :
    assoc_find k2 (assoc_erase k m) = assoc_find k2 m := by
  induction m with
  | nil => simp [assoc_erase, assoc_find]
  | cons e rest ih =>
    unfold assoc_erase at ih ⊢
    by_cases h1 : e.1 = k
    · simp only [List.filter_cons, h1, decide_True, Bool.not_true, Bool.false_eq_true, if_false]
      rw [ih]
      simp [assoc_find, h1, Ne.symm h]
    · simp [List.filter_cons, h1, assoc_find, ih]

theorem assoc_find_set_self {β : Type} (k : String × String) (v : β)
    (m : List ((String × String) × β)) :
    assoc_find k (assoc_set k v m) = (assoc_find k m).map (fun _ => v) := by
  induction m with
  | nil => simp [assoc_set, assoc_find]
  | cons e rest ih =>
    unfold assoc_set at ih ⊢
    by_cases h1 : e.1 = k
    · simp [h1, assoc_find]
    · simp [h1, assoc_find, ih]

theorem assoc_find_set_ne {β : Type} (k k2 : String × String) (v : β)
    (m : List ((String × String) × β)) (h : k2 ≠ k) :
    assoc_find k2 (assoc_set k v m) = assoc_find k2 m := by
  induction m with
  | nil => simp [assoc_set, assoc_find]
  | cons e rest ih =>
    unfold assoc_set at ih ⊢
    by_cases h1 : e.1 = k
    · simp [h1, assoc_find, Ne.symm h, ih]
    · simp [h1, assoc_find, ih]

theorem assoc_set_keys {β : Type} (k : String × String) (v : β)
    (m : List ((String × String) × β)) :
    (assoc_set k v m).map (fun e => e.1) = m.map (fun e => e.1) := by
  induction m with
  | nil => simp [assoc_set]
  | cons e rest ih =>
    unfold assoc_set at ih ⊢
    by_cases h1 : e.1 = k <;> simp [h1, ih]

/-- A tagged name differs from the name it tags. -/
theorem append_tag_ne (version tag : String) (h : tag ≠ "") : version ++ tag ≠ version := by
  intro h1
  have h2 := congrArg String.length h1
  simp only [String.length_append] at h2
  have h3 : tag.length = 0 := by omega
  exact h (by
    cases tag with
    | mk data =>
      simp only [String.length] at h3
      simp [List.length_eq_zero.mp h3])

/-! ## The blocks of `response` -/

theorem exists_version_imp_exists_key (s : persistence) (key version : String)
    (h : s.exists_version key version = true) : s.exists_key key = true := by
  unfold persistence.exists_version at h
  unfold persistence.exists_key
  generalize s.files = files at h ⊢
  induction files with
  | nil => simp [assoc_find] at h
  | cons e rest ih =>
    by_cases h1 : e.1 = (key, version)
    · simp [h1]
    · simp only [assoc_find, h1, if_false] at h
      simp [ih h]

theorem locate_pending_ok (s : persistence) (key pv : String) :
    locate_pending s key pv = .ok (ensured_file s key pv, (key, pv)) := by
  unfold locate_pending ensured_file
  by_cases h : s.exists_version key pv = true
  · have hk := exists_version_imp_exists_key s key pv h
    simp [h, persistence.path_of, hk, Except.map]
  · simp only [Bool.not_eq_true] at h
    simp [h, persistence.add]

theorem ensured_file_exists (s : persistence) (key pv : String) :
    (ensured_file s key pv).exists_version key pv = true := by
  unfold ensured_file
  by_cases h : s.exists_version key pv = true
  · simp [h]
  · simp only [Bool.not_eq_true] at h
    have h2 : assoc_find (key, pv) s.files = none := by
      simpa [persistence.exists_version] using h
    rw [if_neg (by simp [h])]
    simp [persistence.exists_version, assoc_find_insert_absent _ _ _ h2]

theorem ensured_file_find_ne (s : persistence) (key pv : String) (p : path)
    (hp : p ≠ (key, pv)) :
    assoc_find p (ensured_file s key pv).files = assoc_find p s.files := by
  unfold ensured_file
  split
  · rfl
  · exact assoc_find_insert_ne _ _ _ _ hp

theorem ensure_record_find (H : Host) (pending : List ((String × String) × pending_info))
    (from_ key pv : String) :
    assoc_find (key, pv) (ensure_record H pending from_ key pv)
      = some ((assoc_find (key, pv) pending).getD (pending_info.mk_from H from_ pv)) := by
  unfold ensure_record
  by_cases h : assoc_find (key, pv) pending = none
  · have h0 := (assoc_count_eq_zero_iff (key, pv) pending).mpr h
    simp [h0, assoc_find_insert_absent _ _ _ h, h]
  · have h0 : ¬ assoc_count (key, pv) pending = 0 := by
      rw [assoc_count_eq_zero_iff]; exact h
    obtain ⟨info, hinfo⟩ := Option.ne_none_iff_exists'.mp h
    simp [h0, hinfo]

theorem ensure_record_find_ne (H : Host) (pending : List ((String × String) × pending_info))
    (from_ key pv : String) (k : String × String) (hk : k ≠ (key, pv)) :
    assoc_find k (ensure_record H pending from_ key pv) = assoc_find k pending := by
  unfold ensure_record
  split
  · exact assoc_find_insert_ne _ _ _ _ hk
  · rfl

theorem ensure_record_present (H : Host) (pending : List ((String × String) × pending_info))
    (from_ key pv : String) (info : pending_info)
    (h : assoc_find (key, pv) pending = some info) :
    ensure_record H pending from_ key pv = pending := by
  unfold ensure_record
  have h0 : ¬ assoc_count (key, pv) pending = 0 := by
    rw [assoc_count_eq_zero_iff, h]; simp
  simp [h0]

theorem valid_placement_iff (info : pending_info) (start : Nat) :
    valid_placement info start = true
      ↔ info.length = start ∨ ∃ gap ∈ info.gaps, start = gap.1 := by
  have key : ∀ (gaps : List (Nat × Nat)) (b : Bool),
      gaps.foldl (fun valid gap => valid || decide (start = gap.1)) b
        = (b || gaps.any (fun gap => decide (start = gap.1))) := by
    intro gaps
    induction gaps with
    | nil => intro b; simp
    | cons g rest ih => intro b; simp [List.foldl_cons, ih, Bool.or_assoc]
  unfold valid_placement
  by_cases h : info.length = start
  · simp [h]
  · simp [h, key]

/-- The handler on a data response for a version that is not final, once the record of
the transfer is known. -/
theorem response_of_chunk (H : Host) (self : change_transfer) (from_ : String)
    (msg : rpc.response) (info : pending_info)
    (hec : msg.ec = .ok ∨ msg.ec = .eof)
    (hnf : self.exists_version msg.key msg.version = false)
    (hinfo : assoc_find (msg.key, msg.version ++ ".pending")
      (ensure_record H self.pending_ from_ msg.key (msg.version ++ ".pending")) = some info) :
    response H self from_ msg =
      if (valid_placement info msg.start && decide (msg.data ≠ "")) = true then
        accept_chunk H (ensured_file self.root_ msg.key (msg.version ++ ".pending"))
          (ensure_record H self.pending_ from_ msg.key (msg.version ++ ".pending"))
          (msg.key, msg.version ++ ".pending") (ofstream.open_out []) info msg
      else
        { state :=
            { root_ := (ensured_file self.root_ msg.key (msg.version ++ ".pending")).write_file
                (msg.key, msg.version ++ ".pending") [],
              pending_ := ensure_record H self.pending_ from_ msg.key (msg.version ++ ".pending") },
          sent := [], thrown := none } := by
  have hne : ¬ (msg.ec = .no_key ∨ msg.ec = .no_version) := by
    rcases hec with h | h <;> simp [h]
  unfold response
  simp only [hne, if_false, hnf, Bool.not_false, if_true, locate_pending_ok, hinfo]
  rfl

/-- The handler ignores a data response for a version that is final. -/
theorem response_of_final (H : Host) (self : change_transfer) (from_ : String)
    (msg : rpc.response) (hec : msg.ec = .ok ∨ msg.ec = .eof)
    (hf : self.exists_version msg.key msg.version = true) :
    response H self from_ msg = { state := self, sent := [], thrown := none } := by
  have hne : ¬ (msg.ec = .no_key ∨ msg.ec = .no_version) := by
    rcases hec with h | h <;> simp [h]
  unfold response
  simp [hne, hf]

/-- The requests of `tick`, record by record. -/
theorem tick_sent_eq_map (self : change_transfer) :
    (tick self).sent = self.pending_.map (fun pending =>
      (pending.2.from_,
        ({ key := pending.1.1, version := pending.2.version, old_version := "",
           start := match pending.2.gaps with
             | [] => pending.2.length
             | gap :: _ => gap.1 } : rpc.request))) := by
  have key : ∀ (l : List ((String × String) × pending_info)) (init : List (String × rpc.request))
      (f : (String × String) × pending_info → String × rpc.request),
      l.foldl (fun sent pending => sent ++ [f pending]) init = init ++ l.map f := by
    intro l
    induction l with
    | nil => intro init f; simp
    | cons e rest ih => intro init f; simp [List.foldl_cons, ih]
  unfold tick
  simp only
  rw [key]
  simp

/-- A rename of the Store whose source exists and whose destination does not. -/
theorem rename_ok (s : persistence) (k1 v1 k2 v2 : String) (bytes : Bytes)
    (hsrc : assoc_find (k1, v1) s.files = some bytes)
    (hdst : s.exists_version k2 v2 = false)
    (hne : (k1, v1) ≠ (k2, v2)) :
    ∃ s2, s.rename k1 v1 k2 v2 = .ok s2
      ∧ assoc_find (k2, v2) s2.files = some bytes
      ∧ assoc_find (k1, v1) s2.files = none
      ∧ ∀ p, p ≠ (k1, v1) → p ≠ (k2, v2) → assoc_find p s2.files = assoc_find p s.files := by
  have hd : assoc_find (k2, v2) s.files = none := by
    simpa [persistence.exists_version] using hdst
  have hd2 : assoc_find (k2, v2) (assoc_erase (k1, v1) s.files) = none := by
    rw [assoc_find_erase_ne _ _ _ (Ne.symm hne)]; exact hd
  refine ⟨{ files := assoc_insert (k2, v2) bytes (assoc_erase (k1, v1) s.files) }, ?_, ?_, ?_, ?_⟩
  · simp [persistence.rename, hsrc, hdst]
  · exact assoc_find_insert_absent _ _ _ hd2
  · show assoc_find (k1, v1) (assoc_insert (k2, v2) bytes (assoc_erase (k1, v1) s.files)) = none
    rw [assoc_find_insert_ne _ _ _ _ hne]
    exact assoc_find_erase_self _ _
  · intro p hp1 hp2
    show assoc_find p (assoc_insert (k2, v2) bytes (assoc_erase (k1, v1) s.files)) = _
    rw [assoc_find_insert_ne _ _ _ _ hp2, assoc_find_erase_ne _ _ _ hp1]

/-- On a freshly opened stream, a seek that does not fail records no gap. -/
theorem spool_of_seek_ok (H : Host) (gaps : List (Nat × Nat)) (start : Nat)
    (h : H.seek_past_end_fails = false ∨ start = 0) :
    spool H (ofstream.open_out []) gaps start
      = .ok (gaps, { content := [], pos := start, failed := false }) := by
  unfold spool ofstream.seekp ofstream.open_out
  rcases h with h | h
  · simp [h]
  · simp [h]

/-- On a freshly opened stream the positioning never throws. -/
theorem spool_returns (H : Host) (gaps : List (Nat × Nat)) (start : Nat) :
    ∃ spooled, spool H (ofstream.open_out []) gaps start = .ok spooled := by
  unfold spool
  simp only []
  split
  · split
    · rename_i h1 h2
      simp [ofstream.clear, ofstream.seekp_end] at h2
    · exact ⟨_, rfl⟩
  · exact ⟨_, rfl⟩

/-- The Store after the pending file has been written: the file is there. -/
theorem written_pending_find (s : persistence) (key pv : String) (bytes : Bytes) :
    assoc_find (key, pv) ((ensured_file s key pv).write_file (key, pv) bytes).files
      = some bytes := by
  have h := ensured_file_exists s key pv
  unfold persistence.exists_version at h
  obtain ⟨old, hold⟩ := Option.isSome_iff_exists.mp h
  simp [persistence.write_file, assoc_find_set_self, hold]

theorem written_pending_find_ne (s : persistence) (key pv : String) (bytes : Bytes) (p : path)
    (hp : p ≠ (key, pv)) :
    assoc_find p ((ensured_file s key pv).write_file (key, pv) bytes).files
      = assoc_find p s.files := by
  simp only [persistence.write_file]
  rw [assoc_find_set_ne _ _ _ _ hp, ensured_file_find_ne _ _ _ _ hp]

/-- The read buffer always has `block_limit` bytes, however many were read. -/
theorem read_buf_length (H : Host) (block_limit : Nat) (got : Bytes)
    (h : got.length ≤ block_limit) : (read_buf H block_limit got).length = block_limit := by
  unfold read_buf
  simp only [List.length_append, List.length_drop, List.length_take, List.length_replicate]
  omega

/-- The reply of `request` for a final version, on any host: the data is the encoding of
a block of exactly `block_limit` bytes that starts with the bytes read from the file, and
`ec` is `Eof` exactly when fewer than `block_limit` bytes remained. -/
theorem request_data_is_full_block (H : Host) (block_limit : Nat) (self : change_transfer)
    (msg : rpc.request)
    (hfinal : self.exists_version msg.key msg.version = true)
    (hseek : H.seek_past_end_fails = false
      ∨ msg.start ≤ (self.root_.read_file (msg.key, msg.version)).length) :
    ∃ block : Bytes,
      block.length = block_limit
      ∧ block.take (((self.root_.read_file (msg.key, msg.version)).drop msg.start).take
            block_limit).length
          = ((self.root_.read_file (msg.key, msg.version)).drop msg.start).take block_limit
      ∧ request H block_limit self msg
          = .ok (rpc.reply msg (H.encode block)
              (if (self.root_.read_file (msg.key, msg.version)).length - msg.start < block_limit
                then .eof else .ok)) := by
  have hroot : self.root_.exists_version msg.key msg.version = true := by
    unfold change_transfer.exists_version at hfinal
    simp only [Bool.and_eq_true] at hfinal
    exact hfinal.2
  have hkey := exists_version_imp_exists_key _ _ _ hroot
  have hnoseek : (H.seek_past_end_fails
      && decide ((self.root_.read_file (msg.key, msg.version)).length < msg.start)) = false := by
    rcases hseek with h | h
    · simp [h]
    · simp [Nat.not_lt.mpr h]
  refine ⟨read_buf H block_limit
    (((self.root_.read_file (msg.key, msg.version)).drop msg.start).take block_limit), ?_, ?_, ?_⟩
  · exact read_buf_length _ _ _ (by simp [List.length_take])
  · simp [read_buf]
  · simp only [request, change_transfer.exists_key, hkey, hfinal, persistence.path_of, hroot,
      Bool.not_true, Bool.false_eq_true, if_false, hnoseek]
    simp only [List.length_take, List.length_drop]
    congr 2
    by_cases h : (self.root_.read_file (msg.key, msg.version)).length - msg.start < block_limit
    · simp [h]
    · simp [h]

/-! ## The scratch workflow -/

/-- A key that the Store does not know has no version. -/
theorem exists_version_of_unknown_key (s : persistence) (key version : String)
    (h : s.exists_key key = false) : s.exists_version key version = false := by
  cases hv : s.exists_version key version with
  | false => rfl
  | true =>
    have := exists_version_imp_exists_key s key version hv
    rw [h] at this
    exact Bool.noConfusion this

/-- The read loop of `sha1_hash` feeds the hasher blocks that make up the whole file. -/
theorem hash_blocks_feeds_file (lib : sha1_impl) :
    ∀ (fuel : Nat) (st : lib.State) (data : Bytes), data.length < 512 * fuel →
      ∃ chunks : List Bytes,
        chunks.flatten = data ∧ hash_blocks lib fuel st data = chunks.foldl lib.process_bytes st := by
  intro fuel
  induction fuel with
  | zero => intro st data h; omega
  | succ fuel ih =>
    intro st data h
    unfold hash_blocks
    simp only []
    by_cases hshort : (data.take 512).length < 512
    · refine ⟨[data.take 512], ?_, ?_⟩
      · have hlen : data.length < 512 := by
          rw [List.length_take] at hshort
          omega
        simp [List.take_of_length_le (Nat.le_of_lt hlen)]
      · rw [if_pos hshort]
        rfl
    · have hlong : 512 ≤ data.length := by
        rw [List.length_take] at hshort
        omega
      obtain ⟨chunks, hjoin, hfold⟩ := ih (lib.process_bytes st (data.take 512)) (data.drop 512)
        (by rw [List.length_drop]; omega)
      refine ⟨data.take 512 :: chunks, ?_, ?_⟩
      · simp [hjoin]
      · rw [if_neg hshort, hfold]
        rfl

/-- With a library that meets the contract of SHA-1, `sha1_hash` returns the rendering of
the SHA-1 digest of the bytes of the file. -/
theorem sha1_hash_of_file (lib : sha1_impl) (himpl : implements_sha1 lib) (root : persistence)
    (file : path) (data : Bytes) (h : assoc_find file root.files = some data) :
    sha1_hash lib root file = .ok (render_digest (sha1 data)) := by
  obtain ⟨chunks, hjoin, hfold⟩ :=
    hash_blocks_feeds_file lib (data.length + 1) lib.init data (by omega)
  simp only [sha1_hash, h, hfold, himpl chunks, hjoin]

/-- The collecting library meets the contract of SHA-1. -/
theorem reference_sha1_implements : implements_sha1 reference_sha1 := by
  intro chunks
  have key : ∀ (cs : List Bytes) (st : Bytes),
      cs.foldl (fun st buf => st ++ buf) st = st ++ cs.flatten := by
    intro cs
    induction cs with
    | nil => intro st; simp
    | cons c rest ih => intro st; simp [ih]
  show sha1 (chunks.foldl (fun st buf => st ++ buf) []) = sha1 chunks.flatten
  rw [key]
  simp

/-- The member `open` never hands out a handle. -/
theorem open_never_returns (self : change_transfer) (key version : String) (s : scratch) :
    (open_ self key version).result ≠ .ok s := by
  unfold open_
  simp only []
  cases self.root_.add key (version ++ ".scratch") with
  | error e => simp
  | ok added =>
    obtain ⟨root1, scratch_path⟩ := added
    simp only []
    cases root1.path_of key version with
    | error e => simp
    | ok source => simp [scratch.construct]

/-- What `versions(key)` returns: the names of the key in the Store that end with neither
`"scratch"` nor `"pending"`. -/
theorem mem_versions_iff (self : change_transfer) (key name : String) :
    name ∈ versions self key
      ↔ (key, name) ∈ self.root_.versions
          ∧ ¬ "scratch".data <:+ name.data ∧ ¬ "pending".data <:+ name.data := by
  unfold versions
  simp only [List.mem_map, List.mem_filter, ends_with, Bool.not_eq_true',
    Bool.or_eq_false_iff, decide_eq_true_eq]
  constructor
  · rintro ⟨value, ⟨⟨hmem, hkey⟩, hs, hp⟩, rfl⟩
    refine ⟨?_, ?_, ?_⟩
    · rw [← hkey]; exact hmem
    · intro hsuf
      rw [← List.isSuffixOf_iff_suffix] at hsuf
      rw [hsuf] at hs
      exact Bool.noConfusion hs
    · intro hsuf
      rw [← List.isSuffixOf_iff_suffix] at hsuf
      rw [hsuf] at hp
      exact Bool.noConfusion hp
  · rintro ⟨hmem, hs, hp⟩
    refine ⟨(key, name), ⟨⟨hmem, rfl⟩, ?_, ?_⟩, rfl⟩
    · cases h : "scratch".data.isSuffixOf name.data with
      | false => rfl
      | true => exact absurd (List.isSuffixOf_iff_suffix.mp h) hs
    · cases h : "pending".data.isSuffixOf name.data with
      | false => rfl
      | true => exact absurd (List.isSuffixOf_iff_suffix.mp h) hp

/-! ## Failures of `response` -/

theorem tagged_pending_not_untagged (v : String) : ¬ untagged_name (v ++ ".pending") := by
  intro h
  exact h.1 ⟨v.data, by simp [String.data_append]⟩

theorem tagged_scratch_not_untagged (v : String) : ¬ untagged_name (v ++ ".scratch") := by
  intro h
  exact h.2 ⟨v.data, by simp [String.data_append]⟩

theorem untagged_ne_tagged (n v : String) (h : untagged_name n) : n ≠ v ++ ".pending" := by
  intro he
  rw [he] at h
  exact tagged_pending_not_untagged v h

theorem append_tag_cancel (v w tag : String) (h : v ++ tag = w ++ tag) : v = w := by
  have h2 := congrArg String.data h
  simp only [String.data_append] at h2
  have h3 := List.append_cancel_right h2
  cases v; cases w
  simp only at h3
  rw [h3]

theorem scratch_ne_pending (x v : String) : x ++ ".scratch" ≠ v ++ ".pending" := by
  intro h
  have h2 := congrArg String.data h
  simp only [String.data_append] at h2
  have h3 := (List.append_inj' h2 (by decide)).2
  exact absurd h3 (by decide)

theorem fresh_scratch_ne_pending (v : String) : ".scratch" ≠ v ++ ".pending" := by
  have h := scratch_ne_pending "" v
  simpa using h

/-! ## Moves on the sets of names -/

theorem consistent_congr (E R E2 R2 : String × String → Bool)
    (hE : ∀ p, E2 p = E p) (hR : ∀ p, R2 p = R p) (h : consistent_keys E R) :
    consistent_keys E2 R2 := by
  have hE2 : E2 = E := funext hE
  have hR2 : R2 = R := funext hR
  rw [hE2, hR2]; exact h

theorem add_tagged_record (E R : String × String → Bool) (k0 v0 : String)
    (hclean : untagged_name v0) (hcond : E (k0, v0) = true → R (k0, v0) = true)
    (h : consistent_keys E R) :
    consistent_keys E (fun p => R p || decide (p = (k0, v0 ++ ".pending"))) := by
  obtain ⟨hM, hJ⟩ := h
  constructor
  · intro k v hmark
    simp only [Bool.or_eq_true, decide_eq_true_eq] at hmark
    rcases hmark with (hr | he) | he
    · exact hM k v (Or.inl hr)
    · have hv : v = v0 := append_tag_cancel v v0 ".pending" (Prod.mk.inj he).2
      rw [hv]; exact hclean
    · exact hM k v (Or.inr he)
  · intro k v hE hmark
    simp only [Bool.or_eq_true, decide_eq_true_eq] at hmark ⊢
    rcases hmark with (hr | he) | he
    · exact Or.inl (hJ k v hE (Or.inl hr))
    · have hk : k = k0 := (Prod.mk.inj he).1
      have hv : v = v0 := append_tag_cancel v v0 ".pending" (Prod.mk.inj he).2
      subst hk; subst hv
      exact Or.inl (hcond hE)
    · exact Or.inl (hJ k v hE (Or.inr he))

theorem add_tagged_entry (E R : String × String → Bool) (k0 v0 : String)
    (hclean : untagged_name v0) (hcond : E (k0, v0) = true → R (k0, v0) = true)
    (h : consistent_keys E R) :
    consistent_keys (fun p => E p || decide (p = (k0, v0 ++ ".pending"))) R := by
  obtain ⟨hM, hJ⟩ := h
  have hM2 : ∀ k v, (R (k, v ++ ".pending") = true
      ∨ (E (k, v ++ ".pending") || decide ((k, v ++ ".pending") = (k0, v0 ++ ".pending")))
          = true) →
      (R (k, v ++ ".pending") = true ∨ E (k, v ++ ".pending") = true) ∨ (k = k0 ∧ v = v0) := by
    intro k v hmark
    simp only [Bool.or_eq_true, decide_eq_true_eq] at hmark
    rcases hmark with hr | he | he
    · exact Or.inl (Or.inl hr)
    · exact Or.inl (Or.inr he)
    · exact Or.inr ⟨(Prod.mk.inj he).1, append_tag_cancel v v0 ".pending" (Prod.mk.inj he).2⟩
  constructor
  · intro k v hmark
    rcases hM2 k v hmark with hold | ⟨_, hv⟩
    · exact hM k v hold
    · rw [hv]; exact hclean
  · intro k v hE hmark
    simp only [Bool.or_eq_true, decide_eq_true_eq] at hE
    rcases hE with hE | hE
    · rcases hM2 k v hmark with hold | ⟨hk, hv⟩
      · exact hJ k v hE hold
      · subst hk; subst hv
        exact hcond hE
    · exfalso
      have hk : k = k0 := (Prod.mk.inj hE).1
      have hv : v = v0 ++ ".pending" := (Prod.mk.inj hE).2
      subst hk; subst hv
      rcases hM2 k (v0 ++ ".pending") hmark with hold | ⟨_, hv2⟩
      · exact tagged_pending_not_untagged v0 (hM k _ hold)
      · exact append_tag_ne v0 ".pending" (by decide) hv2

theorem add_plain_record (E R : String × String → Bool) (k0 n : String)
    (hn : ∀ v, n ≠ v ++ ".pending") (h : consistent_keys E R) :
    consistent_keys E (fun p => R p || decide (p = (k0, n))) := by
  obtain ⟨hM, hJ⟩ := h
  have hM2 : ∀ k v, ((R (k, v ++ ".pending") || decide ((k, v ++ ".pending") = (k0, n))) = true
      ∨ E (k, v ++ ".pending") = true) →
      (R (k, v ++ ".pending") = true ∨ E (k, v ++ ".pending") = true) := by
    intro k v hmark
    simp only [Bool.or_eq_true, decide_eq_true_eq] at hmark
    rcases hmark with (hr | he) | he
    · exact Or.inl hr
    · exact absurd (Prod.mk.inj he).2.symm (hn v)
    · exact Or.inr he
  constructor
  · intro k v hmark
    exact hM k v (hM2 k v hmark)
  · intro k v hE hmark
    simp only [Bool.or_eq_true, decide_eq_true_eq]
    exact Or.inl (hJ k v hE (hM2 k v hmark))

theorem remove_tagged_record (E R : String × String → Bool) (k0 v0 : String)
    (h : consistent_keys E R) :
    consistent_keys E (fun p => R p && !decide (p = (k0, v0 ++ ".pending"))) := by
  obtain ⟨hM, hJ⟩ := h
  have hM2 : ∀ k v, ((R (k, v ++ ".pending")
        && !decide ((k, v ++ ".pending") = (k0, v0 ++ ".pending"))) = true
      ∨ E (k, v ++ ".pending") = true) →
      (R (k, v ++ ".pending") = true ∨ E (k, v ++ ".pending") = true) := by
    intro k v hmark
    simp only [Bool.and_eq_true] at hmark
    rcases hmark with ⟨hr, _⟩ | he
    · exact Or.inl hr
    · exact Or.inr he
  constructor
  · intro k v hmark
    exact hM k v (hM2 k v hmark)
  · intro k v hE hmark
    have hold := hM2 k v hmark
    simp only [Bool.and_eq_true, Bool.not_eq_true', decide_eq_false_iff_not]
    refine ⟨hJ k v hE hold, ?_⟩
    intro he
    have hv : v = v0 ++ ".pending" := (Prod.mk.inj he).2
    rw [hv] at hold
    exact tagged_pending_not_untagged v0 (hM k _ hold)

theorem remove_entry (E R : String × String → Bool) (q : String × String)
    (h : consistent_keys E R) :
    consistent_keys (fun p => E p && !decide (p = q)) R := by
  obtain ⟨hM, hJ⟩ := h
  have hM2 : ∀ k v, (R (k, v ++ ".pending") = true
      ∨ (E (k, v ++ ".pending") && !decide ((k, v ++ ".pending") = q)) = true) →
      (R (k, v ++ ".pending") = true ∨ E (k, v ++ ".pending") = true) := by
    intro k v hmark
    simp only [Bool.and_eq_true] at hmark
    rcases hmark with hr | ⟨he, _⟩
    · exact Or.inl hr
    · exact Or.inr he
  constructor
  · intro k v hmark
    exact hM k v (hM2 k v hmark)
  · intro k v hE hmark
    simp only [Bool.and_eq_true] at hE
    exact hJ k v hE.1 (hM2 k v hmark)

theorem add_plain_entry (E R : String × String → Bool) (k0 n : String)
    (hn : ∀ v, n ≠ v ++ ".pending")
    (hfree : ¬ (R (k0, n ++ ".pending") = true ∨ E (k0, n ++ ".pending") = true))
    (h : consistent_keys E R) :
    consistent_keys (fun p => E p || decide (p = (k0, n))) R := by
  obtain ⟨hM, hJ⟩ := h
  have hM2 : ∀ k v, (R (k, v ++ ".pending") = true
      ∨ (E (k, v ++ ".pending") || decide ((k, v ++ ".pending") = (k0, n))) = true) →
      (R (k, v ++ ".pending") = true ∨ E (k, v ++ ".pending") = true) := by
    intro k v hmark
    simp only [Bool.or_eq_true, decide_eq_true_eq] at hmark
    rcases hmark with hr | he | he
    · exact Or.inl hr
    · exact Or.inr he
    · exact absurd (Prod.mk.inj he).2.symm (hn v)
  constructor
  · intro k v hmark
    exact hM k v (hM2 k v hmark)
  · intro k v hE hmark
    have hold := hM2 k v hmark
    simp only [Bool.or_eq_true, decide_eq_true_eq] at hE
    rcases hE with hE | hE
    · exact hJ k v hE hold
    · exfalso
      have hk : k = k0 := (Prod.mk.inj hE).1
      have hv : v = n := (Prod.mk.inj hE).2
      subst hk; subst hv
      exact hfree hold

/-! ## The names after each map operation -/

theorem keys_insert {β : Type} (k p : String × String) (v : β)
    (m : List ((String × String) × β)) :
    (assoc_find p (assoc_insert k v m)).isSome
      = ((assoc_find p m).isSome || decide (p = k)) := by
  by_cases hp : p = k
  · subst hp
    cases hf : assoc_find p m with
    | none => simp [assoc_find_insert_absent _ _ _ hf]
    | some x => simp [assoc_insert, hf]
  · simp [assoc_find_insert_ne _ _ _ _ hp, hp]

theorem keys_erase {β : Type} (k p : String × String) (m : List ((String × String) × β)) :
    (assoc_find p (assoc_erase k m)).isSome
      = ((assoc_find p m).isSome && !decide (p = k)) := by
  by_cases hp : p = k
  · subst hp
    simp [assoc_find_erase_self]
  · simp [assoc_find_erase_ne _ _ _ hp, hp]

theorem keys_set {β : Type} (k p : String × String) (v : β)
    (m : List ((String × String) × β)) :
    (assoc_find p (assoc_set k v m)).isSome = (assoc_find p m).isSome := by
  by_cases hp : p = k
  · subst hp
    rw [assoc_find_set_self]
    cases assoc_find p m <;> rfl
  · rw [assoc_find_set_ne _ _ _ _ hp]

theorem keys_ensured_file (root : persistence) (key pv : String) (p : String × String) :
    (assoc_find p (ensured_file root key pv).files).isSome
      = ((assoc_find p root.files).isSome || decide (p = (key, pv))) := by
  unfold ensured_file
  by_cases h : root.exists_version key pv = true
  · simp only [h, if_true]
    by_cases hp : p = (key, pv)
    · subst hp
      unfold persistence.exists_version at h
      simp [h]
    · simp [hp]
  · simp only [h]
    exact keys_insert _ _ _ _

theorem keys_ensure_record (H : Host) (pending : List ((String × String) × pending_info))
    (from_ key pv : String) (p : String × String) :
    (assoc_find p (ensure_record H pending from_ key pv)).isSome
      = ((assoc_find p pending).isSome || decide (p = (key, pv))) := by
  unfold ensure_record
  by_cases h : assoc_count (key, pv) pending = 0
  · simp only [h, if_true]
    exact keys_insert _ _ _ _
  · simp only [h, if_false]
    by_cases hp : p = (key, pv)
    · subst hp
      have h2 : (assoc_find (key, pv) pending).isSome = true := by
        cases hf : assoc_find (key, pv) pending with
        | none => exact absurd ((assoc_count_eq_zero_iff (key, pv) pending).mpr hf) h
        | some x => rfl
      simp [h2]
    · simp [hp]

theorem keys_rename (s s2 : persistence) (k1 v1 k2 v2 : String)
    (h : s.rename k1 v1 k2 v2 = .ok s2) (p : String × String) :
    (assoc_find p s2.files).isSome
      = (((assoc_find p s.files).isSome && !decide (p = (k1, v1))) || decide (p = (k2, v2))) := by
  unfold persistence.rename at h
  cases hsrc : assoc_find (k1, v1) s.files with
  | none => simp [hsrc] at h
  | some bytes =>
    simp only [hsrc] at h
    by_cases hd : s.exists_version k2 v2 = true
    · simp [hd] at h
    · simp only [hd] at h
      have h2 := Except.ok.inj h
      rw [← h2]
      simp only []
      rw [keys_insert, keys_erase]

/-! ## The invariant is kept by every operation -/

/-- An untagged entry whose tagged form is not in use: adding it keeps the invariant.  The
tagged form of a scratch name is never in use. -/
theorem add_scratch_entry (E R : String × String → Bool) (k0 n : String)
    (hn : ∀ v, n ≠ v ++ ".pending") (htag : ¬ untagged_name n)
    (h : consistent_keys E R) :
    consistent_keys (fun p => E p || decide (p = (k0, n))) R :=
  add_plain_entry E R k0 n hn (fun hmark => htag (h.1 k0 n hmark)) h

theorem consistent_start (st : change_transfer) (hp : st.pending_ = [])
    (hnames : ∀ p ∈ st.root_.versions, untagged_name p.2) : consistent st := by
  have hmem : ∀ p, entry_keys st p = true → p ∈ st.root_.versions := by
    intro p h
    unfold entry_keys at h
    unfold persistence.versions
    generalize st.root_.files = files at h ⊢
    induction files with
    | nil => simp [assoc_find] at h
    | cons e rest ih =>
      by_cases h1 : e.1 = p
      · simp [h1]
      · simp only [assoc_find, h1, if_false] at h
        simp only [List.map_cons, List.mem_cons]
        exact Or.inr (ih h)
  have hrec : ∀ p, record_keys st p = false := by
    intro p
    simp [record_keys, hp, assoc_find]
  have hno : ∀ k v, ¬ (record_keys st (k, v ++ ".pending") = true
      ∨ entry_keys st (k, v ++ ".pending") = true) := by
    intro k v hmark
    rcases hmark with hr | he
    · rw [hrec] at hr
      exact Bool.noConfusion hr
    · exact tagged_pending_not_untagged v (hnames _ (hmem _ he))
  exact ⟨fun k v hmark => absurd hmark (hno k v), fun k v _ hmark => absurd hmark (hno k v)⟩

theorem consistent_negative_ack (H : Host) (st : change_transfer) (from_ : String)
    (msg : rpc.response) (hec : msg.ec = .no_key ∨ msg.ec = .no_version)
    (h : consistent st) : consistent (response H st from_ msg).state := by
  unfold response
  simp only [hec, if_true]
  unfold consistent
  refine consistent_congr _ _ _ _ ?_ ?_
    (remove_entry _ _ (msg.key, msg.version ++ ".pending")
      (remove_tagged_record _ _ msg.key msg.version h))
  · intro p
    simp only [entry_keys]
    by_cases hx : st.root_.exists_version msg.key (msg.version ++ ".pending") = true
    · simp only [hx, if_true, persistence.kill]
      exact keys_erase _ _ _
    · simp only [hx]
      by_cases hp : p = (msg.key, msg.version ++ ".pending")
      · subst hp
        unfold persistence.exists_version at hx
        simp only [Bool.not_eq_true] at hx
        simp [hx]
      · simp [hp]
  · intro p
    simp only [record_keys]
    by_cases hx : assoc_count (msg.key, msg.version ++ ".pending") st.pending_ = 1
    · simp only [hx, if_true]
      exact keys_erase _ _ _
    · simp only [hx, if_false]
      by_cases hp : p = (msg.key, msg.version ++ ".pending")
      · subst hp
        rw [assoc_count_eq_one_iff] at hx
        simp only [Bool.not_eq_true] at hx
        simp [hx]
      · simp [hp]

/-- The names once `response` has made sure of the record and of the pending file. -/
theorem consistent_staged (st : change_transfer) (k0 v0 : String)
    (hclean : untagged_name v0) (hnf : st.exists_version k0 v0 = false)
    (h : consistent st) :
    consistent_keys (fun p => entry_keys st p || decide (p = (k0, v0 ++ ".pending")))
      (fun p => record_keys st p || decide (p = (k0, v0 ++ ".pending"))) := by
  have hcond : entry_keys st (k0, v0) = true → record_keys st (k0, v0) = true := by
    intro hE
    unfold change_transfer.exists_version persistence.exists_version at hnf
    unfold entry_keys at hE
    simp only [hE, Bool.and_true, decide_eq_false_iff_not] at hnf
    unfold record_keys
    cases hf : assoc_find (k0, v0) st.pending_ with
    | none => exact absurd ((assoc_count_eq_zero_iff _ _).mpr hf) hnf
    | some x => rfl
  apply add_tagged_entry _ _ k0 v0 hclean
  · intro hE
    simp only [Bool.or_eq_true]
    exact Or.inl (hcond hE)
  · exact add_tagged_record _ _ k0 v0 hclean hcond h

/-- The names after `accept_chunk`: those it was given, or, after a promotion, those with
the pending name replaced by the final one and the record gone. -/
theorem accept_chunk_keys (H : Host) (root1 : persistence)
    (pending1 : List ((String × String) × pending_info)) (of0 : ofstream)
    (info : pending_info) (msg : rpc.response) :
    ((∀ p, entry_keys (accept_chunk H root1 pending1 (msg.key, msg.version ++ ".pending")
          of0 info msg).state p = (assoc_find p root1.files).isSome)
      ∧ (∀ p, record_keys (accept_chunk H root1 pending1 (msg.key, msg.version ++ ".pending")
          of0 info msg).state p = (assoc_find p pending1).isSome))
    ∨ ((∀ p, entry_keys (accept_chunk H root1 pending1 (msg.key, msg.version ++ ".pending")
          of0 info msg).state p
            = (((assoc_find p root1.files).isSome
                && !decide (p = (msg.key, msg.version ++ ".pending")))
              || decide (p = (msg.key, msg.version))))
      ∧ (∀ p, record_keys (accept_chunk H root1 pending1 (msg.key, msg.version ++ ".pending")
          of0 info msg).state p
            = ((assoc_find p pending1).isSome
                && !decide (p = (msg.key, msg.version ++ ".pending"))))) := by
  unfold accept_chunk
  cases hsp : spool H of0 info.gaps msg.start with
  | error e =>
    left
    simp only [entry_keys, record_keys, persistence.write_file]
    exact ⟨fun p => keys_set _ _ _ _, fun p => trivial⟩
  | ok spooled =>
    simp only []
    cases hdec : H.decode msg.data with
    | none =>
      left
      simp only [entry_keys, record_keys, persistence.write_file]
      exact ⟨fun p => keys_set _ _ _ _, fun p => keys_set _ _ _ _⟩
    | some payload =>
      simp only []
      by_cases hp : ((if msg.ec = .eof then true else info.eof_seen)
          && (spooled.1.filter (fun value => !decide (value.1 = msg.start))).isEmpty) = true
      · simp only [hp, if_true]
        cases hren : (root1.write_file (msg.key, msg.version ++ ".pending")
            (spooled.2.write payload).content).rename msg.key
              (msg.version ++ ".pending") msg.key msg.version with
        | error e =>
          left
          simp only [entry_keys, record_keys, persistence.write_file]
          exact ⟨fun p => keys_set _ _ _ _, fun p => keys_set _ _ _ _⟩
        | ok root3 =>
          right
          simp only [entry_keys, record_keys]
          constructor
          · intro p
            rw [keys_rename _ _ _ _ _ _ hren p]
            simp only [persistence.write_file, keys_set]
          · intro p
            rw [keys_erase, keys_set]
      · simp only [hp, Bool.false_eq_true, if_false]
        left
        simp only [entry_keys, record_keys, persistence.write_file]
        exact ⟨fun p => keys_set _ _ _ _, fun p => keys_set _ _ _ _⟩

theorem consistent_data_response (H : Host) (st : change_transfer) (from_ : String)
    (msg : rpc.response) (hec : msg.ec = .ok ∨ msg.ec = .eof)
    (hclean : untagged_name msg.version)
    (h : consistent st) : consistent (response H st from_ msg).state := by
  by_cases hf : st.exists_version msg.key msg.version = true
  · rw [response_of_final H st from_ msg hec hf]
    exact h
  · simp only [Bool.not_eq_true] at hf
    have hstaged := consistent_staged st msg.key msg.version hclean hf h
    rw [response_of_chunk H st from_ msg _ hec hf (ensure_record_find _ _ _ _ _)]
    unfold consistent
    split
    · rcases accept_chunk_keys H (ensured_file st.root_ msg.key (msg.version ++ ".pending"))
          (ensure_record H st.pending_ from_ msg.key (msg.version ++ ".pending"))
          (ofstream.open_out [])
          ((assoc_find (msg.key, msg.version ++ ".pending") st.pending_).getD
            (pending_info.mk_from H from_ (msg.version ++ ".pending"))) msg
        with ⟨hE, hR⟩ | ⟨hE, hR⟩
      · refine consistent_congr _ _ _ _ ?_ ?_ hstaged
        · intro p
          rw [hE p, keys_ensured_file]
          rfl
        · intro p
          rw [hR p, keys_ensure_record]
          rfl
      · have hdone := add_plain_entry _ _ msg.key msg.version
          (fun v => untagged_ne_tagged msg.version v hclean)
          (by simp)
          (remove_entry _ _ (msg.key, msg.version ++ ".pending")
            (remove_tagged_record _ _ msg.key msg.version hstaged))
        refine consistent_congr _ _ _ _ ?_ ?_ hdone
        · intro p
          rw [hE p, keys_ensured_file]
          rfl
        · intro p
          rw [hR p, keys_ensure_record]
          rfl
    · refine consistent_congr _ _ _ _ ?_ ?_ hstaged
      · intro p
        simp only [entry_keys, persistence.write_file, keys_set, keys_ensured_file]
      · intro p
        simp only [record_keys, keys_ensure_record]

theorem consistent_commit (H : Host) (st : change_transfer) (from_ key version : String)
    (hclean : untagged_name version) (h : consistent st) :
    consistent (commit_handler H st from_ key version).state := by
  unfold commit_handler
  simp only []
  -- the Store after the attempt to add the pending file
  have hadded : (if (!st.exists_version key (version ++ ".pending")) = true then
        Except.map Prod.fst (st.root_.add key (version ++ ".pending"))
      else Except.ok st.root_)
      = .error .already_exists
      ∨ (if (!st.exists_version key (version ++ ".pending")) = true then
        Except.map Prod.fst (st.root_.add key (version ++ ".pending"))
      else Except.ok st.root_)
      = .ok (ensured_file st.root_ key (version ++ ".pending")) := by
    by_cases hx : st.exists_version key (version ++ ".pending") = true
    · right
      have hroot : st.root_.exists_version key (version ++ ".pending") = true := by
        unfold change_transfer.exists_version at hx
        simp only [Bool.and_eq_true] at hx
        exact hx.2
      simp [hx, ensured_file, hroot]
    · simp only [Bool.not_eq_true] at hx
      by_cases hroot : st.root_.exists_version key (version ++ ".pending") = true
      · left
        simp [hx, persistence.add, hroot, Except.map]
      · right
        simp only [Bool.not_eq_true] at hroot
        simp [hx, persistence.add, hroot, Except.map, ensured_file]
  rcases hadded with he | hok
  · rw [he]
    exact h
  · rw [hok]
    simp only []
    unfold consistent
    by_cases hc : assoc_count (key, version ++ ".pending") st.pending_ = 0
    · simp only [hc, if_true]
      have h1 := add_plain_record _ _ key version
        (fun v => untagged_ne_tagged version v hclean) h
      have h2 := add_tagged_entry _ _ key version hclean (by intro _; simp) h1
      refine consistent_congr _ _ _ _ ?_ ?_ h2
      · intro p
        simp only [entry_keys, keys_ensured_file]
      · intro p
        simp only [record_keys, keys_insert]
    · simp only [hc, if_false]
      have hrec : record_keys st (key, version ++ ".pending") = true := by
        unfold record_keys
        cases hf : assoc_find (key, version ++ ".pending") st.pending_ with
        | none => exact absurd ((assoc_count_eq_zero_iff _ _).mpr hf) hc
        | some x => rfl
      have h2 := add_tagged_entry _ _ key version hclean
        (fun hE => h.2 key version hE (Or.inl hrec)) h
      refine consistent_congr _ _ _ _ ?_ ?_ h2
      · intro p
        simp only [entry_keys, keys_ensured_file]
      · intro p
        rfl

/-- The names of the Store after an `add` that succeeded. -/
theorem keys_add (s s2 : persistence) (key version : String) (q : path)
    (h : s.add key version = .ok (s2, q)) (p : String × String) :
    (assoc_find p s2.files).isSome
      = ((assoc_find p s.files).isSome || decide (p = (key, version))) := by
  unfold persistence.add at h
  by_cases hx : s.exists_version key version = true
  · simp [hx] at h
  · simp only [hx] at h
    have h2 := (Prod.mk.inj (Except.ok.inj h)).1
    rw [← h2]
    exact keys_insert _ _ _ _

theorem add_path (s s2 : persistence) (key version : String) (q : path)
    (h : s.add key version = .ok (s2, q)) : q = (key, version) := by
  unfold persistence.add at h
  by_cases hx : s.exists_version key version = true
  · simp [hx] at h
  · simp only [hx] at h
    exact ((Prod.mk.inj (Except.ok.inj h)).2).symm

theorem consistent_open (st : change_transfer) (key version : String)
    (h : consistent st) : consistent (open_ st key version).state := by
  unfold open_
  simp only []
  cases hadd : st.root_.add key (version ++ ".scratch") with
  | error e => exact h
  | ok added =>
    obtain ⟨root1, scratch_path⟩ := added
    have hkeys := keys_add _ _ _ _ _ hadd
    have hnew := add_scratch_entry _ _ key (version ++ ".scratch")
      (fun v => scratch_ne_pending version v) (tagged_scratch_not_untagged version) h
    simp only []
    cases hsrc : root1.path_of key version with
    | error e =>
      refine consistent_congr _ _ _ _ ?_ ?_ hnew
      · intro p; simp only [entry_keys, hkeys]
      · intro p; rfl
    | ok source =>
      refine consistent_congr _ _ _ _ ?_ ?_ hnew
      · intro p
        simp only [entry_keys, persistence.write_file, keys_set, hkeys]
      · intro p; rfl

theorem consistent_add (st : change_transfer) (key : String)
    (h : consistent st) : consistent (add st key).state := by
  unfold add
  cases hadd : st.root_.add key ".scratch" with
  | error e => exact h
  | ok added =>
    obtain ⟨root1, scratch_path⟩ := added
    have hkeys := keys_add _ _ _ _ _ hadd
    have htag : ¬ untagged_name ".scratch" := fun hu => hu.2 (List.suffix_refl _)
    have hnew := add_scratch_entry _ _ key ".scratch"
      (fun v => fresh_scratch_ne_pending v) htag h
    refine consistent_congr _ _ _ _ ?_ ?_ hnew
    · intro p; simp only [entry_keys, hkeys]
    · intro p; rfl

theorem consistent_kill (st : change_transfer) (scratch_info : scratch)
    (h : consistent st) : consistent (kill st scratch_info) := by
  unfold kill consistent
  refine consistent_congr _ _ _ _ ?_ ?_
    (remove_entry _ _ (scratch_info.key_, scratch_info.version_) h)
  · intro p
    simp only [entry_keys, persistence.kill]
    exact keys_erase _ _ _
  · intro p; rfl

/-- Every reachable state satisfies the invariant. -/
theorem reachable_consistent (H : Host) (st : change_transfer) (h : reachable H st) :
    consistent st := by
  induction h with
  | start st hp hnames => exact consistent_start st hp hnames
  | by_commit st from_ key version _ hclean ih =>
    exact consistent_commit H st from_ key version hclean ih
  | by_response st from_ msg _ hmsg ih =>
    by_cases hnack : msg.ec = .no_key ∨ msg.ec = .no_version
    · exact consistent_negative_ack H st from_ msg hnack ih
    · have hec : msg.ec = .ok ∨ msg.ec = .eof := by
        cases hc : msg.ec <;> simp [hc] at hnack ⊢
      have hclean : untagged_name msg.version := by
        rcases hmsg with h1 | h2
        · exact h1
        · exact absurd h2 hnack
      exact consistent_data_response H st from_ msg hec hclean ih
  | by_tick st _ ih => exact ih
  | by_open st key version _ ih => exact consistent_open st key version ih
  | by_add st key _ ih => exact consistent_add st key ih
  | by_kill st scratch_info _ ih => exact consistent_kill st scratch_info ih

/-- With a library that meets the contract of SHA-1 and a scratch whose Store entry holds
the bytes `X`: if the Store has no entry under the rendering of the SHA-1 digest of `X`,
`close` returns that rendering, moves the bytes to it and leaves every other entry and the
pending map as they were; if the Store has such an entry, `close` fails with
`AlreadyExists` and leaves the engine as it was. -/
theorem close_renames_to_rendered_digest (lib : sha1_impl) (himpl : implements_sha1 lib) (self : change_transfer) (s : scratch) (X : Bytes)
    (hpath : s.resolved_ = (s.key_, s.version_))
    (hentry : assoc_find (s.key_, s.version_) self.root_.files = some X) :
    (self.root_.exists_version s.key_ (render_digest (sha1 X)) = false →
      (close lib self s).result = .ok (render_digest (sha1 X))
      ∧ assoc_find (s.key_, render_digest (sha1 X)) (close lib self s).state.root_.files = some X
      ∧ assoc_find (s.key_, s.version_) (close lib self s).state.root_.files = none
      ∧ (∀ p, p ≠ (s.key_, s.version_) → p ≠ (s.key_, render_digest (sha1 X)) →
          assoc_find p (close lib self s).state.root_.files = assoc_find p self.root_.files)
      ∧ (close lib self s).state.pending_ = self.pending_)
    ∧ (self.root_.exists_version s.key_ (render_digest (sha1 X)) = true →
      (close lib self s).result = .error .already_exists
      ∧ (close lib self s).state = self) := by
  have hhash : sha1_hash lib self.root_ s.resolved_ = .ok (render_digest (sha1 X)) := by
    rw [hpath]; exact sha1_hash_of_file lib himpl _ _ _ hentry
  constructor
  · intro hdst
    have hne : (s.key_, s.version_) ≠ (s.key_, render_digest (sha1 X)) := by
      intro h
      rw [h] at hentry
      simp [persistence.exists_version, hentry] at hdst
    obtain ⟨s2, hs2, hnew, hold, hrest⟩ := rename_ok self.root_ _ _ _ _ X hentry hdst hne
    have hres : close lib self s
        = { state := { self with root_ := s2 }, result := .ok (render_digest (sha1 X)) } := by
      simp [close, hhash, hs2]
    rw [hres]
    exact ⟨rfl, hnew, hold, hrest, rfl⟩
  · intro hdst
    simp [close, hhash, persistence.rename, hentry, hdst]

/-- With a library that meets the contract of SHA-1 and a scratch whose Store entry holds
the bytes `X`: if the Store knows `new_key`, `rename` fails with `AlreadyExists` and leaves
the engine as it was; otherwise it returns the rendering of the SHA-1 digest of `X`, moves
the bytes to `(new_key, rendering)`, leaves every other entry as it was, and every further
`rename` to `new_key` fails with `AlreadyExists`. -/
theorem rename_moves_to_rendered_digest (lib : sha1_impl) (himpl : implements_sha1 lib) (self : change_transfer) (new_key : String) (s : scratch)
    (X : Bytes)
    (hpath : s.resolved_ = (s.key_, s.version_))
    (hentry : assoc_find (s.key_, s.version_) self.root_.files = some X) :
    (self.root_.exists_key new_key = true →
      (rename lib self new_key s).result = .error .already_exists
      ∧ (rename lib self new_key s).state = self)
    ∧ (self.root_.exists_key new_key = false →
      (rename lib self new_key s).result = .ok (render_digest (sha1 X))
      ∧ assoc_find (new_key, render_digest (sha1 X)) (rename lib self new_key s).state.root_.files
          = some X
      ∧ assoc_find (s.key_, s.version_) (rename lib self new_key s).state.root_.files = none
      ∧ (∀ p, p ≠ (s.key_, s.version_) → p ≠ (new_key, render_digest (sha1 X)) →
          assoc_find p (rename lib self new_key s).state.root_.files
            = assoc_find p self.root_.files)
      ∧ ∀ s2 : scratch,
          (rename lib (rename lib self new_key s).state new_key s2).result
            = .error .already_exists) := by
  have hhash : sha1_hash lib self.root_ s.resolved_ = .ok (render_digest (sha1 X)) := by
    rw [hpath]; exact sha1_hash_of_file lib himpl _ _ _ hentry
  constructor
  · intro hk
    simp [rename, hk]
  · intro hk
    have hdst := exists_version_of_unknown_key self.root_ new_key (render_digest (sha1 X)) hk
    have hne : (s.key_, s.version_) ≠ (new_key, render_digest (sha1 X)) := by
      intro h
      rw [h] at hentry
      simp [persistence.exists_version, hentry] at hdst
    obtain ⟨s2, hs2, hnew, hold, hrest⟩ := rename_ok self.root_ _ _ _ _ X hentry hdst hne
    have hres : rename lib self new_key s
        = { state := { self with root_ := s2 }, result := .ok (render_digest (sha1 X)) } := by
      simp [rename, hk, hhash, hs2]
    rw [hres]
    refine ⟨rfl, hnew, hold, hrest, ?_⟩
    intro s3
    have hknown : s2.exists_key new_key = true :=
      exists_version_imp_exists_key s2 new_key (render_digest (sha1 X))
        (by simp [persistence.exists_version, hnew])
    simp [rename, hknown]

/-! ## The claims -/

/-- Claim C1 (the code departs from it): the blob `[97, 98]` of `("a", "v1")` is delivered
in order as the chunks `[97]` (offset 0, `Ok`) and `[98]` (offset 1, `Eof`) to an engine
with no pending record and no Store entry.  Each call of `response` reopens the pending
file with a truncating stream, so the first chunk is lost: where a seek beyond the end of
the file succeeds the promoted file holds `[0, 98]`, and where it fails a gap `(0, 1)` is
recorded and the transfer stays pending with the same bytes. -/
theorem in_order_transfer_loses_first_chunk :
    (response posix_host (response posix_host empty_engine "p" first_chunk).state "p"
        last_chunk).state
      = { root_ := { files := [(("a", "v1"), [0, 98])] }, pending_ := [] }
    ∧ (response strict_seek_host (response strict_seek_host empty_engine "p" first_chunk).state
        "p" last_chunk).state
      = { root_ := { files := [(("a", "v1.pending"), [0, 98])] },
          pending_ := [(("a", "v1.pending"),
            { eof_seen := true, length := 2, from_ := "p", version := "v1.pending",
              gaps := [(0, 1)] })] } := by
  decide

/-- Claim C2 (the code departs from it): after `commit_handler("p", "a", "v1")` on the
empty engine and the delivery of the whole one-byte blob (offset 0, `Eof`), the Store holds
the final `("a", "v1")`, but the record that `commit_handler` stored under the untagged key
`("a", "v1")` is still in the pending map: `exists("a", "v1")` is false, the path of
`("a", "v1")` fails with `InProgress`, and `tick` sends one more request. -/
theorem committed_transfer_stays_pending :
    (commit_handler posix_host empty_engine "p" "a" "v1").sent
        = [("p", { key := "a", version := "v1", old_version := "", start := 0 })]
    ∧ (response posix_host (commit_handler posix_host empty_engine "p" "a" "v1").state "p"
        whole_blob).state
      = { root_ := { files := [(("a", "v1"), [97])] },
          pending_ := [(("a", "v1"),
            { eof_seen := false, length := 0, from_ := "p", version := "v1.pending",
              gaps := [] })] }
    ∧ (response posix_host (commit_handler posix_host empty_engine "p" "a" "v1").state "p"
        whole_blob).state.exists_version "a" "v1" = false
    ∧ (response posix_host (commit_handler posix_host empty_engine "p" "a" "v1").state "p"
        whole_blob).state.get "a" "v1" = .error .in_progress
    ∧ (tick (response posix_host (commit_handler posix_host empty_engine "p" "a" "v1").state "p"
        whole_blob).state).sent
      = [("p", { key := "a", version := "v1.pending", old_version := "", start := 0 })] := by
  refine ⟨by decide, by decide, by decide, by decide, by decide⟩

set_option maxRecDepth 100000 in
/-- Claim C3 (the code departs from it): the final `("a", "v1")` holds the two bytes
`[104, 105]` and `block_limit` is 450.  The reply to a request at offset 0 carries the
encoding of the whole 450-byte read buffer, the two bytes of the file followed by 448
bytes that were never read, and the reply to a request at the end of the file (offset 2)
carries the encoding of 450 such bytes instead of empty data; both have `ec = Eof`. -/
theorem request_encodes_whole_buffer :
    (∃ r, request posix_host 450 serving_engine
          { key := "a", version := "v1", old_version := "", start := 0 } = .ok r
        ∧ r.ec = .eof
        ∧ posix_host.decode r.data = some (104 :: 105 :: List.replicate 448 0))
    ∧ (∃ r, request posix_host 450 serving_engine
          { key := "a", version := "v1", old_version := "", start := 2 } = .ok r
        ∧ r.ec = .eof
        ∧ r.data ≠ ""
        ∧ posix_host.decode r.data = some (List.replicate 450 0)) := by
  refine ⟨⟨_, rfl, by decide, by decide⟩, ⟨_, rfl, by decide, by decide, by decide⟩⟩

set_option maxRecDepth 100000 in
/-- Claim C4 as stated fails: the Store knows the key `"a"` and holds `("a", "v1.scratch")`
as a scratch entry only, yet a request for `("a", "v1.scratch")` is not answered
`NoVersion`: the reply carries the bytes of the scratch file. -/
theorem scratch_entry_is_served :
    engine_with_scratch.root_.exists_key "a" = true
    ∧ ∃ r, request posix_host 450 engine_with_scratch
          { key := "a", version := "v1.scratch", old_version := "", start := 0 } = .ok r
        ∧ r.ec = .eof
        ∧ posix_host.decode r.data = some (104 :: 105 :: List.replicate 448 0) := by
  refine ⟨by decide, _, rfl, by decide, by decide⟩

/-- Claim C4, amended: for every engine state and every request, if the Store has no
entry for the key the reply is `NoKey` with empty data; otherwise, if the Store has no
entry `(key, version)` or the pending map holds a record keyed `(key, version)`, the reply
is `NoVersion` with empty data. -/
theorem request_refuses_unknown (H : Host) (block_limit : Nat) (self : change_transfer)
    (msg : rpc.request) :
    (self.root_.exists_key msg.key = false →
      request H block_limit self msg
        = .ok { key := msg.key, version := msg.version, old_version := msg.old_version,
                start := msg.start, data := "", ec := .no_key })
    ∧ (self.root_.exists_key msg.key = true →
        (self.root_.exists_version msg.key msg.version = false
          ∨ (assoc_find (msg.key, msg.version) self.pending_).isSome = true) →
        request H block_limit self msg
          = .ok { key := msg.key, version := msg.version, old_version := msg.old_version,
                  start := msg.start, data := "", ec := .no_version }) := by
  constructor
  · intro h
    simp [request, change_transfer.exists_key, h, rpc.reply]
  · intro hk h
    have hv : self.exists_version msg.key msg.version = false := by
      unfold change_transfer.exists_version
      rcases h with h | h
      · simp [h]
      · have : ¬ assoc_count (msg.key, msg.version) self.pending_ = 0 := by
          rw [assoc_count_eq_zero_iff]
          intro h0
          rw [h0] at h
          simp at h
        simp [this]
    simp [request, change_transfer.exists_key, hk, hv, rpc.reply]

/-- Witness of `request_refuses_unknown`: the empty engine answers `NoKey`, and the engine
that holds only the pending file of `("a", "v1")` answers `NoVersion`. -/
theorem request_refuses_unknown_witness :
    request posix_host 450 empty_engine
        { key := "a", version := "v1", old_version := "", start := 0 }
      = .ok { key := "a", version := "v1", old_version := "", start := 0, data := "",
              ec := .no_key }
    ∧ request posix_host 450 engine_after_first
        { key := "a", version := "v1", old_version := "", start := 0 }
      = .ok { key := "a", version := "v1", old_version := "", start := 0, data := "",
              ec := .no_version } :=
  ⟨(request_refuses_unknown posix_host 450 empty_engine
      { key := "a", version := "v1", old_version := "", start := 0 }).1 (by decide),
   (request_refuses_unknown posix_host 450 engine_after_first
      { key := "a", version := "v1", old_version := "", start := 0 }).2 (by decide)
      (Or.inl (by decide))⟩

/-- Claim C5 as stated fails, in two ways.  First, the transfer of `("a", "v1")` holds its
first chunk (length 1, no gap) and receives a terminal response at offset 1, a valid
placement, with `ec = Eof` and empty data: the handler drops it, `eof_seen` stays false, the
record stays and no final `("a", "v1")` appears.  Second, in the engine reached by
committing and transferring a version that the Store already holds, a terminal response
with data at the length of the pending transfer sets `eof_seen` and leaves no gap, but the
rename onto the existing final version throws and the record is not erased. -/
theorem empty_terminal_chunk_is_ignored :
    (response posix_host empty_engine "p" first_chunk).state = engine_after_first
    ∧ valid_placement record_after_first empty_terminal.start = true
    ∧ (response posix_host engine_after_first "p" empty_terminal).state.pending_
        = [(("a", "v1.pending"), record_after_first)]
    ∧ (response posix_host engine_after_first "p" empty_terminal).state.root_.exists_version
        "a" "v1" = false
    ∧ (response strict_seek_host engine_after_first "p" empty_terminal).state.pending_
        = [(("a", "v1.pending"), record_after_first)]
    ∧ (response strict_seek_host engine_after_first "p" empty_terminal).state.root_.exists_version
        "a" "v1" = false
    ∧ (response posix_host (commit_handler posix_host serving_engine "p" "a" "v1").state "p"
        whole_blob).state = engine_recommitted
    ∧ (response posix_host engine_recommitted "p" last_chunk).thrown = some .already_exists
    ∧ assoc_find ("a", "v1.pending")
        (response posix_host engine_recommitted "p" last_chunk).state.pending_
      = some { eof_seen := true, length := 2, from_ := "p", version := "v1.pending",
               gaps := [] } := by
  decide

/-- Claim C5, amended: for every pending transfer of a `(key, version)` that the Store
does not hold yet, and every response for it whose placement is valid, whose `ec` is `Eof`
and whose data is non-empty and decodes, `response` returns normally and, within that
call, either leaves the record with `eof_seen` set and a gap remaining, or erases the
record and renames the pending entry to the final `(key, version)`; the latter happens
whenever the seek does not fail and every gap of the record starts at the response's
offset. -/
theorem terminal_chunk_completes (H : Host) (self : change_transfer) (from_ : String)
    (msg : rpc.response) (info : pending_info) (payload : Bytes)
    (hec : msg.ec = .eof)
    (hrec : assoc_find (msg.key, msg.version ++ ".pending") self.pending_ = some info)
    (hvalid : info.length = msg.start ∨ ∃ gap ∈ info.gaps, msg.start = gap.1)
    (hdata : msg.data ≠ "")
    (hdec : H.decode msg.data = some payload)
    (hnofinal : self.root_.exists_version msg.key msg.version = false) :
    (response H self from_ msg).thrown = none
    ∧ ((∃ info2, assoc_find (msg.key, msg.version ++ ".pending")
            (response H self from_ msg).state.pending_ = some info2
          ∧ info2.eof_seen = true ∧ info2.gaps ≠ [])
       ∨ (assoc_find (msg.key, msg.version ++ ".pending")
            (response H self from_ msg).state.pending_ = none
          ∧ (response H self from_ msg).state.root_.exists_version msg.key msg.version = true
          ∧ (response H self from_ msg).state.root_.exists_version msg.key
              (msg.version ++ ".pending") = false))
    ∧ ((H.seek_past_end_fails = false ∨ msg.start = 0) →
       (∀ gap ∈ info.gaps, gap.1 = msg.start) →
        assoc_find (msg.key, msg.version ++ ".pending")
            (response H self from_ msg).state.pending_ = none
          ∧ (response H self from_ msg).state.root_.exists_version msg.key msg.version = true
          ∧ (response H self from_ msg).state.root_.exists_version msg.key
              (msg.version ++ ".pending") = false) := by
  have hnf : self.exists_version msg.key msg.version = false := by
    simp [change_transfer.exists_version, hnofinal]
  have hkeep := ensure_record_present H self.pending_ from_ msg.key
    (msg.version ++ ".pending") info hrec
  have hv : valid_placement info msg.start = true := (valid_placement_iff _ _).mpr hvalid
  have hpk : (msg.key, msg.version ++ ".pending") ≠ (msg.key, msg.version) := by
    intro h
    exact append_tag_ne msg.version ".pending" (by decide) (Prod.mk.inj h).2
  rw [response_of_chunk H self from_ msg info (Or.inr hec) hnf (by rw [hkeep]; exact hrec)]
  simp only [hv, hdata, Bool.true_and, ne_eq, not_false_eq_true, decide_True, if_true, hkeep]
  unfold accept_chunk
  simp only [hdec, hec, if_true, Bool.true_and]
  -- the Store once the chunk is written
  obtain ⟨spooled, hsp⟩ := spool_returns H info.gaps msg.start
  simp only [hsp]
  generalize hbytes : (spooled.2.write payload).content = bytes
  have hsrc := written_pending_find self.root_ msg.key (msg.version ++ ".pending") bytes
  have hdst : ((ensured_file self.root_ msg.key (msg.version ++ ".pending")).write_file
      (msg.key, msg.version ++ ".pending") bytes).exists_version msg.key msg.version = false := by
    have := written_pending_find_ne self.root_ msg.key (msg.version ++ ".pending") bytes
      (msg.key, msg.version) (Ne.symm hpk)
    unfold persistence.exists_version at hnofinal ⊢
    rw [this]; exact hnofinal
  obtain ⟨s2, hs2, hnew, hold, _⟩ := rename_ok _ _ _ _ _ bytes hsrc hdst hpk
  by_cases hg : (spooled.1.filter (fun value => !decide (value.1 = msg.start))).isEmpty = true
  · simp only [hg, if_true, hs2]
    have hB : assoc_find (msg.key, msg.version ++ ".pending")
          (assoc_erase (msg.key, msg.version ++ ".pending")
            (assoc_set (msg.key, msg.version ++ ".pending")
              { eof_seen := true, length := max ((spooled.2.write payload).tellp % 2 ^ 32) info.length,
                from_ := info.from_, version := info.version,
                gaps := spooled.1.filter (fun value => !decide (value.1 = msg.start)) }
              self.pending_)) = none
        ∧ s2.exists_version msg.key msg.version = true
        ∧ s2.exists_version msg.key (msg.version ++ ".pending") = false := by
      refine ⟨assoc_find_erase_self _ _, ?_, ?_⟩
      · simp [persistence.exists_version, hnew]
      · simp [persistence.exists_version, hold]
    exact ⟨trivial, Or.inr hB, fun _ _ => hB⟩
  · simp only [hg, Bool.false_eq_true, if_false]
    have hfind := assoc_find_set_self (msg.key, msg.version ++ ".pending")
      ({ eof_seen := true, length := max ((spooled.2.write payload).tellp % 2 ^ 32) info.length,
         from_ := info.from_, version := info.version,
         gaps := spooled.1.filter (fun value => !decide (value.1 = msg.start)) } : pending_info)
      self.pending_
    rw [hrec] at hfind
    refine ⟨trivial, Or.inl (Exists.intro _ (And.intro hfind (And.intro rfl ?_))), ?_⟩
    · intro h
      apply hg
      simp only at h
      rw [h]; rfl
    · intro hseek hall
      exfalso
      apply hg
      have hval : spooled = (info.gaps, { content := [], pos := msg.start, failed := false }) := by
        have h2 := spool_of_seek_ok H info.gaps msg.start hseek
        rw [hsp] at h2
        exact Except.ok.inj h2
      rw [hval]
      simp only [List.isEmpty_iff, List.filter_eq_nil_iff]
      intro gap hgap
      simp [hall gap hgap]

/-- Witness of `terminal_chunk_completes`: the last chunk of the blob, delivered after
the first, promotes `("a", "v1")`. -/
theorem terminal_chunk_completes_witness :
    (response posix_host engine_after_first "p" last_chunk).state.root_.exists_version
        "a" "v1" = true :=
  ((terminal_chunk_completes posix_host engine_after_first "p" last_chunk record_after_first
      [98] (by decide) (by decide) (Or.inl (by decide)) (by decide) (by decide)
      (by decide)).2.2 (Or.inl (by decide)) (by decide)).2.1

/-- Claim C6 as stated fails: the empty engine receives a response for `("a", "v1")` at
offset 5, which is neither the length of the transfer (0 on this host) nor the start of a
gap.  The chunk is not written, yet the call leaves a pending record and a pending file
behind. -/
theorem misplaced_chunk_creates_record :
    empty_engine.exists_version "a" "v1" = false
    ∧ (response posix_host empty_engine "p" stray_chunk).state
      = { root_ := { files := [(("a", "v1.pending"), [])] },
          pending_ := [(("a", "v1.pending"),
            { eof_seen := false, length := 0, from_ := "p", version := "v1.pending",
              gaps := [] })] }
    ∧ (response posix_host empty_engine "p" stray_chunk).state ≠ empty_engine := by
  decide

/-- Claim C6, amended: for every engine state that already holds the pending record and
the pending Store entry of `(key, version)`, and every response with `ec` in `{Ok, Eof}`
whose `start` equals neither the record's length nor the start of any of its gaps,
`response` leaves the pending map as it was, leaves the set of Store entries as it was and
leaves the bytes of every file other than the pending file as they were; it sends nothing
and returns normally. -/
theorem misplaced_chunk_is_dropped (H : Host) (self : change_transfer) (from_ : String)
    (msg : rpc.response) (info : pending_info)
    (hec : msg.ec = .ok ∨ msg.ec = .eof)
    (hrec : assoc_find (msg.key, msg.version ++ ".pending") self.pending_ = some info)
    (hfile : self.root_.exists_version msg.key (msg.version ++ ".pending") = true)
    (hlen : msg.start ≠ info.length)
    (hgap : ∀ gap ∈ info.gaps, msg.start ≠ gap.1) :
    (response H self from_ msg).state.pending_ = self.pending_
    ∧ (response H self from_ msg).state.root_.versions = self.root_.versions
    ∧ (∀ p, p ≠ (msg.key, msg.version ++ ".pending") →
        assoc_find p (response H self from_ msg).state.root_.files
          = assoc_find p self.root_.files)
    ∧ (response H self from_ msg).sent = []
    ∧ (response H self from_ msg).thrown = none := by
  have hnv : valid_placement info msg.start = false := by
    rw [← Bool.not_eq_true, valid_placement_iff]
    rintro (h | ⟨gap, hg, h⟩)
    · exact hlen h.symm
    · exact hgap gap hg h
  by_cases hf : self.exists_version msg.key msg.version = true
  · rw [response_of_final H self from_ msg hec hf]
    exact ⟨rfl, rfl, fun _ _ => rfl, rfl, rfl⟩
  · simp only [Bool.not_eq_true] at hf
    have hkeep := ensure_record_present H self.pending_ from_ msg.key
      (msg.version ++ ".pending") info hrec
    rw [response_of_chunk H self from_ msg info hec hf (by rw [hkeep]; exact hrec)]
    simp only [hnv, Bool.false_and, Bool.false_eq_true, if_false, hkeep]
    have hroot : ensured_file self.root_ msg.key (msg.version ++ ".pending") = self.root_ := by
      simp [ensured_file, hfile]
    rw [hroot]
    refine ⟨trivial, ?_, ?_, trivial, trivial⟩
    · simp [persistence.versions, persistence.write_file, assoc_set_keys]
    · intro p hp
      simp [persistence.write_file, assoc_find_set_ne _ _ _ _ hp]

/-- Witness of `misplaced_chunk_is_dropped`: a replay of the first chunk, at offset 0
while the length is 1. -/
theorem misplaced_chunk_is_dropped_witness :
    (response posix_host engine_after_first "p" first_chunk).state.pending_
      = engine_after_first.pending_ :=
  (misplaced_chunk_is_dropped posix_host engine_after_first "p" first_chunk record_after_first
    (Or.inl (by decide)) (by decide) (by decide) (by decide) (by decide)).1

/-- Claim C7 as stated fails: the transfer of `("a", "v1")` has length 1 and no gap, and
receives a response with data at offset 3.  No gap is recorded and the length stays 1: the
record is what it was. -/
theorem chunk_ahead_records_no_gap :
    (response posix_host engine_after_first "p" chunk_ahead).state.pending_
      = [(("a", "v1.pending"), record_after_first)]
    ∧ (response strict_seek_host engine_after_first "p" chunk_ahead).state.pending_
      = [(("a", "v1.pending"), record_after_first)] := by
  decide

/-- Claim C7, amended: for every pending transfer with an empty gap list and every
response for it with `ec` in `{Ok, Eof}` whose `start` is greater than the transfer's
length, `response` discards the response: the pending map is as it was (no gap is recorded,
the length is unchanged) and no file of the Store grows (nothing is zero-filled, no payload
is written); it sends nothing and returns normally. -/
theorem chunk_beyond_length_is_discarded (H : Host) (self : change_transfer) (from_ : String)
    (msg : rpc.response) (info : pending_info)
    (hec : msg.ec = .ok ∨ msg.ec = .eof)
    (hrec : assoc_find (msg.key, msg.version ++ ".pending") self.pending_ = some info)
    (hgaps : info.gaps = [])
    (hstart : info.length < msg.start) :
    (response H self from_ msg).state.pending_ = self.pending_
    ∧ (∀ p, ((response H self from_ msg).state.root_.read_file p).length
        ≤ (self.root_.read_file p).length)
    ∧ (response H self from_ msg).sent = []
    ∧ (response H self from_ msg).thrown = none := by
  have hnv : valid_placement info msg.start = false := by
    rw [← Bool.not_eq_true, valid_placement_iff, hgaps]
    rintro (h | ⟨gap, hg, _⟩)
    · omega
    · simp at hg
  by_cases hf : self.exists_version msg.key msg.version = true
  · rw [response_of_final H self from_ msg hec hf]
    exact ⟨rfl, fun _ => le_refl _, rfl, rfl⟩
  · simp only [Bool.not_eq_true] at hf
    have hkeep := ensure_record_present H self.pending_ from_ msg.key
      (msg.version ++ ".pending") info hrec
    rw [response_of_chunk H self from_ msg info hec hf (by rw [hkeep]; exact hrec)]
    simp only [hnv, Bool.false_and, Bool.false_eq_true, if_false, hkeep]
    refine ⟨trivial, ?_, trivial, trivial⟩
    intro p
    by_cases hp : p = (msg.key, msg.version ++ ".pending")
    · subst hp
      simp [persistence.read_file, written_pending_find]
    · simp [persistence.read_file, written_pending_find_ne _ _ _ _ _ hp]

/-- Witness of `chunk_beyond_length_is_discarded`: the chunk at offset 3 for the transfer
of length 1. -/
theorem chunk_beyond_length_is_discarded_witness :
    (response posix_host engine_after_first "p" chunk_ahead).state.pending_
      = engine_after_first.pending_ :=
  (chunk_beyond_length_is_discarded posix_host engine_after_first "p" chunk_ahead
    record_after_first (Or.inl (by decide)) (by decide) (by decide) (by decide)).1

/-- Claim C8 (the code departs from it): the first chunk of the blob is handled once and
then once more on the empty engine.  After the first call the pending file holds `[97]`;
the second call finds the chunk misplaced but has already truncated the pending file, so
the engine after two deliveries differs from the engine after one. -/
theorem replayed_chunk_empties_pending_file :
    (response posix_host empty_engine "p" first_chunk).state = engine_after_first
    ∧ (response posix_host engine_after_first "p" first_chunk).state
      = { root_ := { files := [(("a", "v1.pending"), [])] },
          pending_ := [(("a", "v1.pending"), record_after_first)] }
    ∧ (response posix_host engine_after_first "p" first_chunk).state ≠ engine_after_first
    ∧ (response strict_seek_host empty_engine "p" first_chunk).state = engine_after_first
    ∧ (response strict_seek_host engine_after_first "p" first_chunk).state
        ≠ engine_after_first := by
  decide

/-- Claim C9: for every engine state and every response with `ec = NoKey` or
`ec = NoVersion` for `(key, version)`, after `response` the pending map has no record keyed
`(key, version + ".pending")` and the Store has no entry `(key, version + ".pending")`;
every other pending record and every other Store entry is as before, nothing is sent and
the call returns normally. -/
theorem negative_ack_abandons_transfer (H : Host) (self : change_transfer) (from_ : String)
    (msg : rpc.response) (hec : msg.ec = .no_key ∨ msg.ec = .no_version) :
    assoc_find (msg.key, msg.version ++ ".pending") (response H self from_ msg).state.pending_
        = none
    ∧ (response H self from_ msg).state.root_.exists_version msg.key
        (msg.version ++ ".pending") = false
    ∧ (∀ k, k ≠ (msg.key, msg.version ++ ".pending") →
        assoc_find k (response H self from_ msg).state.pending_ = assoc_find k self.pending_)
    ∧ (∀ p, p ≠ (msg.key, msg.version ++ ".pending") →
        assoc_find p (response H self from_ msg).state.root_.files
          = assoc_find p self.root_.files)
    ∧ (response H self from_ msg).sent = []
    ∧ (response H self from_ msg).thrown = none := by
  unfold response
  simp only [hec, if_true]
  refine ⟨?_, ?_, ?_, ?_, trivial, trivial⟩
  · split
    · exact assoc_find_erase_self _ _
    · rename_i h
      rw [assoc_count_eq_one_iff] at h
      simpa using h
  · simp only [persistence.exists_version, persistence.kill]
    split
    · simp [assoc_find_erase_self]
    · rename_i h
      simpa using h
  · intro k hk
    split
    · exact assoc_find_erase_ne _ _ _ hk
    · rfl
  · intro p hp
    split
    · exact assoc_find_erase_ne _ _ _ hp
    · rfl

/-- Witness of `negative_ack_abandons_transfer`: a `NoVersion` reply for the transfer that
holds its first chunk removes the pending file. -/
theorem negative_ack_abandons_transfer_witness :
    (response posix_host engine_after_first "p" negative_ack).state.root_.exists_version
        "a" ("v1" ++ ".pending") = false :=
  (negative_ack_abandons_transfer posix_host engine_after_first "p" negative_ack
    (Or.inr (by decide))).2.1

/-- Claim C10: for every engine state, `tick` sends exactly one request per record of the
pending map, in step with the records (hence none when the map is empty), each addressed to
that record's source peer, with `start` equal to the start of the record's first gap when
there is one and to the record's length otherwise; `tick` leaves the pending map and the
Store as they were. -/
theorem tick_requests_each_pending (self : change_transfer) :
    (tick self).state = self
    ∧ (tick self).thrown = none
    ∧ List.Forall₂
        (fun (pending : (String × String) × pending_info) (s : String × rpc.request) =>
          s.1 = pending.2.from_
          ∧ (pending.2.gaps = [] → s.2.start = pending.2.length)
          ∧ (∀ gap rest, pending.2.gaps = gap :: rest → s.2.start = gap.1))
        self.pending_ (tick self).sent
    ∧ (self.pending_ = [] → (tick self).sent = []) := by
  refine ⟨rfl, rfl, ?_, ?_⟩
  · rw [tick_sent_eq_map, List.forall₂_map_right_iff]
    apply List.forall₂_same.mpr
    intro e _
    refine ⟨rfl, ?_, ?_⟩
    · intro h; simp [h]
    · intro gap rest h; simp [h]
  · intro h
    rw [tick_sent_eq_map, h]
    rfl

/-- Witness of `tick_requests_each_pending`: on the engine that holds the first chunk,
`tick` leaves the state alone. -/
theorem tick_requests_each_pending_witness :
    (tick engine_after_first).state = engine_after_first :=
  (tick_requests_each_pending engine_after_first).1

/-- Claim C11 (the code departs from it): the record that `response` creates for the
transfer of `("a", "v1")`, and the record that `commit_handler` creates for it, both hold
the tagged name in their member `version`, which the source documents as the true
version.  The request that `tick` sends for either carries the key `"a"`, an empty
`old_version` and the version `"v1.pending"` instead of `"v1"`. -/
theorem tick_requests_tagged_version :
    (response posix_host empty_engine "p" first_chunk).state = engine_after_first
    ∧ (tick engine_after_first).sent
      = [("p", { key := "a", version := "v1.pending", old_version := "", start := 1 })]
    ∧ (tick (commit_handler posix_host empty_engine "p" "a" "v1").state).sent
      = [("p", { key := "a", version := "v1.pending", old_version := "", start := 0 })] := by
  decide

/-- Claim C12 (the code departs from it): `commit_handler("p", "a", "v1")` on the empty
engine adds the pending file and sends the request for offset 0, but stores the record
under the untagged key `("a", "v1")`, so the pending map has no record keyed
`("a", "v1.pending")`.  When the pending file and a record under the tagged key exist
already, as after a first chunk, `commit_handler` tries to add the file again, the failure
is swallowed, and no request is sent. -/
theorem commit_handler_files_record_under_untagged_key :
    (commit_handler posix_host empty_engine "p" "a" "v1").state
      = { root_ := { files := [(("a", "v1.pending"), [])] },
          pending_ := [(("a", "v1"),
            { eof_seen := false, length := 0, from_ := "p", version := "v1.pending",
              gaps := [] })] }
    ∧ assoc_find ("a", "v1.pending")
        (commit_handler posix_host empty_engine "p" "a" "v1").state.pending_ = none
    ∧ (commit_handler posix_host empty_engine "p" "a" "v1").sent
      = [("p", { key := "a", version := "v1", old_version := "", start := 0 })]
    ∧ (commit_handler posix_host engine_after_first "q" "a" "v1").sent = []
    ∧ (commit_handler posix_host engine_after_first "q" "a" "v1").state = engine_after_first := by
  decide

/-- Claim C13 as stated fails: the scratch of `("a", "v1")` that `open` leaves in the Store
is present as a scratch entry only, and `exists("a", "v1.scratch")` is true; after
`commit_handler("p", "a", "v1")` on the empty engine, `exists("a", "v1.pending")` is true
as well. -/
theorem exists_reports_scratch_entry :
    (open_ serving_engine "a" "v1").state = engine_with_scratch
    ∧ engine_with_scratch.exists_version "a" "v1.scratch" = true
    ∧ (commit_handler posix_host empty_engine "p" "a" "v1").state.exists_version
        "a" "v1.pending" = true := by
  decide

/-- Claim C13, amended: for every engine state, key and version name, `exists(key, version)`
is true if and only if the Store holds an entry `(key, version)` and the pending map holds
no record keyed `(key, version)`. -/
theorem exists_iff_stored_and_unrecorded (self : change_transfer) (key version : String) :
    self.exists_version key version = true
      ↔ (self.root_.exists_version key version = true
          ∧ assoc_find (key, version) self.pending_ = none) := by
  unfold change_transfer.exists_version
  rw [Bool.and_eq_true, decide_eq_true_eq, assoc_count_eq_zero_iff]
  exact And.comm

/-- Witness of `exists_iff_stored_and_unrecorded`: the final `("a", "v1")` exists for the
engine, and the pending file of the transfer that holds its first chunk does not. -/
theorem exists_iff_stored_and_unrecorded_witness :
    engine_with_scratch.exists_version "a" "v1" = true
    ∧ ¬ engine_after_first.exists_version "a" "v1.pending" = true :=
  ⟨(exists_iff_stored_and_unrecorded engine_with_scratch "a" "v1").mpr
      ⟨by decide, by decide⟩,
   fun h => absurd ((exists_iff_stored_and_unrecorded engine_after_first "a" "v1.pending").mp
      h).2 (by decide)⟩

/-- Claim C14 (the code departs from it): the transfer of `("a", "v1")` is pending, with a
record keyed `("a", "v1.pending")` that `response` created for its first chunk.  The functor
call looks for a record keyed `("a", "v1")`, finds none and asks the Store, so the path of
`("a", "v1")` fails with `NoSuchVersion` instead of `InProgress`. -/
theorem pending_path_fails_with_no_such_version :
    (response posix_host empty_engine "p" first_chunk).state = engine_after_first
    ∧ (assoc_find ("a", "v1.pending") engine_after_first.pending_).isSome = true
    ∧ get engine_after_first "a" "v1" = .error .no_such_version := by
  decide

/-- Claim C15 (the code departs from it): the Store holds the final versions `"scratch"`,
`"v1"` and `"xpending"` of `"a"`; none of these names ends with `".pending"` or
`".scratch"`, and `exists` reports each of them.  The filter of `versions` tests the
suffixes `"scratch"` and `"pending"` without the dot, so `versions("a")` returns `"v1"`
alone. -/
theorem versions_drops_untagged_names :
    engine_with_named_versions.exists_version "a" "xpending" = true
    ∧ engine_with_named_versions.exists_version "a" "scratch" = true
    ∧ ends_with "xpending" ".pending" = false
    ∧ ends_with "scratch" ".scratch" = false
    ∧ versions engine_with_named_versions "a" = ["v1"] := by
  decide

/-- Claim C16: for every Store content and every key, no element of `versions(key)` ends
with `".pending"` or with `".scratch"`. -/
theorem versions_excludes_tagged_names (self : change_transfer) (key name : String)
    (h : name ∈ versions self key) :
    ¬ ".pending".data <:+ name.data ∧ ¬ ".scratch".data <:+ name.data := by
  unfold versions at h
  simp only [List.mem_map, List.mem_filter] at h
  obtain ⟨value, ⟨_, hkeep⟩, rfl⟩ := h
  simp only [ends_with, Bool.not_eq_true', Bool.or_eq_false_iff] at hkeep
  obtain ⟨hs, hp⟩ := hkeep
  have hs2 : ¬ "scratch".data <:+ value.2.data := by
    intro hsuf
    rw [← List.isSuffixOf_iff_suffix] at hsuf
    rw [hsuf] at hs
    exact Bool.noConfusion hs
  have hp2 : ¬ "pending".data <:+ value.2.data := by
    intro hsuf
    rw [← List.isSuffixOf_iff_suffix] at hsuf
    rw [hsuf] at hp
    exact Bool.noConfusion hp
  constructor
  · intro hsuf
    exact hp2 (List.IsSuffix.trans ⟨['.'], rfl⟩ hsuf)
  · intro hsuf
    exact hs2 (List.IsSuffix.trans ⟨['.'], rfl⟩ hsuf)

/-- Witness of `versions_excludes_tagged_names`: the version `"v1"` that the serving engine
lists for `"a"`. -/
theorem versions_excludes_tagged_names_witness :
    ¬ ".pending".data <:+ "v1".data ∧ ¬ ".scratch".data <:+ "v1".data :=
  versions_excludes_tagged_names serving_engine "a" "v1" (by decide)

/-- Claim C17 (the code departs from it): the digest
`de9f2c7f d25e1b3a fad3e85a 0bd17d9b 100db4b3` is rendered as a string of 39 characters,
because the field width of 8 applies to the first word only and the fourth word loses its
leading zero; the digest `(1, 2, 3, 4, 5)` is rendered as the 12 characters
`000000012345`. -/
theorem digest_rendering_drops_leading_zeros :
    render_digest digest_with_zero_digit = "de9f2c7fd25e1b3afad3e85abd17d9b100db4b3"
    ∧ (render_digest digest_with_zero_digit).length = 39
    ∧ render_digest { w0 := 1, w1 := 2, w2 := 3, w3 := 4, w4 := 5 } = "000000012345" := by
  decide

set_option maxRecDepth 100000 in
/-- Claim C18 (the code departs from it): the scratch `("a", "v1.scratch")` holds the 43
bytes of "The quick brown fox jumps over the lazy cog", whose version id `hash(X)`, the
SHA-1 digest as 40 hexadecimal digits, is `de9f2c7fd25e1b3afad3e85a0bd17d9b100db4b3`, and
the Store has no entry `("a", hash(X))`.  With a library that computes SHA-1, `close`
returns the 39 characters `de9f2c7fd25e1b3afad3e85abd17d9b100db4b3`, which is not `hash(X)`,
and afterwards the Store holds the bytes under that name and holds no entry
`("a", hash(X))`. -/
theorem close_returns_shortened_id :
    spec_hash cog_text = "de9f2c7fd25e1b3afad3e85a0bd17d9b100db4b3"
    ∧ engine_with_cog_scratch.root_.exists_version "a" (spec_hash cog_text) = false
    ∧ (close reference_sha1 engine_with_cog_scratch scratch_of_v1).result
        = .ok "de9f2c7fd25e1b3afad3e85abd17d9b100db4b3"
    ∧ (close reference_sha1 engine_with_cog_scratch scratch_of_v1).state
        = { root_ :=
              { files := [(("a", "de9f2c7fd25e1b3afad3e85abd17d9b100db4b3"), cog_text)] },
            pending_ := [] }
    ∧ (close reference_sha1 engine_with_cog_scratch scratch_of_v1).result
        ≠ .ok (spec_hash cog_text)
    ∧ (close reference_sha1 engine_with_cog_scratch scratch_of_v1).state.root_.exists_version
        "a" (spec_hash cog_text) = false := by
  decide

/-- Claim C19 (the code departs from it): the Store holds the final `("a", "v1")`.  The call
`open("a", "v1")` creates the scratch entry as a copy of the version and then fails with
"Not yet implemented", thrown by the constructor of the handle, instead of returning the
handle.  The call `open("a", "v9")` for a version that the Store does not hold fails with
`NoSuchVersion` after it has added an empty scratch entry `("a", "v9.scratch")`. -/
theorem open_always_throws :
    serving_engine.exists_version "a" "v1" = true
    ∧ (open_ serving_engine "a" "v1").result = .error .not_implemented
    ∧ (open_ serving_engine "a" "v1").state = engine_with_scratch
    ∧ (open_ serving_engine "a" "v9").result = .error .no_such_version
    ∧ (open_ serving_engine "a" "v9").state.root_.files
      = [(("a", "v1"), [104, 105]), (("a", "v9.scratch"), [])] := by
  decide

set_option maxRecDepth 100000 in
/-- Claim C20 (the code departs from it): the scratch `("a", "v1.scratch")` holds the 43
bytes of "The quick brown fox jumps over the lazy cog", whose version id `hash(X)`, the
SHA-1 digest as 40 hexadecimal digits, is `de9f2c7fd25e1b3afad3e85a0bd17d9b100db4b3`, and
the Store does not know the key `"c"`.  With a library that computes SHA-1,
`rename("c", s)` returns the 39 characters `de9f2c7fd25e1b3afad3e85abd17d9b100db4b3`, which
is not `hash(X)`, and afterwards the Store holds the bytes under `("c", ...)` with that name
and holds no entry `("c", hash(X))`. -/
theorem rename_returns_shortened_id :
    spec_hash cog_text = "de9f2c7fd25e1b3afad3e85a0bd17d9b100db4b3"
    ∧ engine_with_cog_scratch.root_.exists_key "c" = false
    ∧ (rename reference_sha1 engine_with_cog_scratch "c" scratch_of_v1).result
        = .ok "de9f2c7fd25e1b3afad3e85abd17d9b100db4b3"
    ∧ (rename reference_sha1 engine_with_cog_scratch "c" scratch_of_v1).state
        = { root_ :=
              { files := [(("c", "de9f2c7fd25e1b3afad3e85abd17d9b100db4b3"), cog_text)] },
            pending_ := [] }
    ∧ (rename reference_sha1 engine_with_cog_scratch "c" scratch_of_v1).result
        ≠ .ok (spec_hash cog_text)
    ∧ (rename reference_sha1 engine_with_cog_scratch "c" scratch_of_v1).state.root_.exists_version
        "c" (spec_hash cog_text) = false := by
  decide

/-- Claim C22 as stated fails, in two ways.  First, after the complete transfer of
`("a", "v1")` a complete response for the version named `"v1.pending"` is promoted to a
final `("a", "v1.pending")`: `exists("a", "v1")` is true and the Store holds the entry
`("a", "v1" + ".pending")`.  Second, while the transfer of the version `"000000000000"` is
pending, `add("a")` leaves an empty scratch and `close` on a handle of it, with a library
that gives the empty file that id, promotes it: `exists("a", "000000000000")` is true beside
the pending record and the pending file of that version. -/
theorem final_version_beside_pending_name :
    (response posix_host empty_engine "p" whole_blob).state
      = { root_ := { files := [(("a", "v1"), [97])] }, pending_ := [] }
    ∧ (response posix_host (response posix_host empty_engine "p" whole_blob).state "q"
        tagged_blob).state
      = { root_ := { files := [(("a", "v1"), [97]), (("a", "v1.pending"), [98])] },
          pending_ := [] }
    ∧ (response posix_host (response posix_host empty_engine "p" whole_blob).state "q"
        tagged_blob).state.exists_version "a" "v1" = true
    ∧ (response posix_host (response posix_host empty_engine "p" whole_blob).state "q"
        tagged_blob).state.root_.exists_version "a" ("v1" ++ ".pending") = true
    ∧ sha1_hash sample_sha1
        (add (response posix_host empty_engine "p" hashed_chunk).state "a").state.root_
        ("a", ".scratch") = .ok "000000000000"
    ∧ (close sample_sha1 (add (response posix_host empty_engine "p" hashed_chunk).state
        "a").state fresh_scratch).state.exists_version "a" "000000000000" = true
    ∧ (assoc_find ("a", "000000000000" ++ ".pending")
        (close sample_sha1 (add (response posix_host empty_engine "p" hashed_chunk).state
          "a").state fresh_scratch).state.pending_).isSome = true
    ∧ (close sample_sha1 (add (response posix_host empty_engine "p" hashed_chunk).state
        "a").state fresh_scratch).state.root_.exists_version "a"
          ("000000000000" ++ ".pending") = true := by
  decide

/-- Claim C22, amended: in every engine state reached from an engine with an empty pending
map and untagged names in its Store, through `commit_handler` and data responses that
carry untagged version names, negative acknowledgements, `tick`, `open`, `add` and `kill`,
for every key `k` and version `v`: if `exists(k, v)` is true then the pending map has no
record keyed `(k, v + ".pending")` and the Store has no entry `(k, v + ".pending")`. -/
theorem exists_excludes_pending_marks (H : Host) (st : change_transfer) (k v : String)
    (hreach : reachable H st) (hex : st.exists_version k v = true) :
    assoc_find (k, v ++ ".pending") st.pending_ = none
    ∧ st.root_.exists_version k (v ++ ".pending") = false := by
  have hcons := reachable_consistent H st hreach
  unfold change_transfer.exists_version at hex
  simp only [Bool.and_eq_true, decide_eq_true_eq] at hex
  obtain ⟨hcount, hentry⟩ := hex
  have hnorec : record_keys st (k, v) = false := by
    unfold record_keys
    rw [(assoc_count_eq_zero_iff _ _).mp hcount]
    rfl
  have hnomark : ¬ (record_keys st (k, v ++ ".pending") = true
      ∨ entry_keys st (k, v ++ ".pending") = true) := by
    intro hmark
    have := hcons.2 k v hentry hmark
    rw [hnorec] at this
    exact Bool.noConfusion this
  constructor
  · cases hf : assoc_find (k, v ++ ".pending") st.pending_ with
    | none => rfl
    | some x => exact absurd (Or.inl (by simp [record_keys, hf])) hnomark
  · cases hf : st.root_.exists_version k (v ++ ".pending") with
    | false => rfl
    | true => exact absurd (Or.inr hf) hnomark

/-- Witness of `exists_excludes_pending_marks`: the engine after the complete transfer of
`("a", "v1")`. -/
theorem exists_excludes_pending_marks_witness :
    assoc_find ("a", "v1" ++ ".pending")
        (response posix_host empty_engine "p" whole_blob).state.pending_ = none
    ∧ (response posix_host empty_engine "p" whole_blob).state.root_.exists_version "a"
        ("v1" ++ ".pending") = false :=
  exists_excludes_pending_marks posix_host (response posix_host empty_engine "p" whole_blob).state
    "a" "v1"
    (reachable.by_response empty_engine "p" whole_blob
      (reachable.start empty_engine rfl
        (by intro p hp; simp [empty_engine, persistence.versions] at hp))
      (Or.inl ⟨by decide, by decide⟩))
    (by decide)

/-- Claim C23 (the code departs from it): the digests `(0, 0x1, 0x23, 0, 0)` and
`(0, 0x12, 0x3, 0, 0)` differ in their second and third words and are rendered alike, as
`0000000012300`, because only the first word is padded to 8 digits. -/
theorem digest_rendering_collides :
    ({ w0 := 0, w1 := 0x1, w2 := 0x23, w3 := 0, w4 := 0 } : sha1_digest)
      ≠ { w0 := 0, w1 := 0x12, w2 := 0x3, w3 := 0, w4 := 0 }
    ∧ render_digest { w0 := 0, w1 := 0x1, w2 := 0x23, w3 := 0, w4 := 0 } = "0000000012300"
    ∧ render_digest { w0 := 0, w1 := 0x12, w2 := 0x3, w3 := 0, w4 := 0 } = "0000000012300" := by
  decide

end Craven
